import Mathlib

/-!
Verification of the arXiv "Command Search" export tool (`Export.py`).

The first part embeds the query translator
`normalize_command_search_to_arxiv` as executable functions over
`List Char`, mirroring the Python pipeline step by step:
strip, typographic-quote normalization, whitespace collapsing,
connective uppercasing via literal substitution, the two
`All Metadata` clause rewrites, parenthesis spacing cleanup and the
final collapse/strip.  The second part models the fetch/export stages
(`search_arxiv_to_dataframe`, `main`) over an explicit record model.
-/

/-- The whitespace characters matched by Python's `\s` on `str`
patterns and stripped by argumentless `str.strip()`: the full Unicode
whitespace class (code points 9-13, 28-32, 0x85, 0xA0, 0x1680,
0x2000-0x200A, 0x2028, 0x2029, 0x202F, 0x205F, 0x3000), not just the
six ASCII ones. -/
def wsChars : List Char :=
  [' ', '\t', '\n', Char.ofNat 11, Char.ofNat 12, '\r',
   Char.ofNat 28, Char.ofNat 29, Char.ofNat 30, Char.ofNat 31,
   Char.ofNat 133, Char.ofNat 160, Char.ofNat 5760,
   Char.ofNat 8192, Char.ofNat 8193, Char.ofNat 8194, Char.ofNat 8195,
   Char.ofNat 8196, Char.ofNat 8197, Char.ofNat 8198, Char.ofNat 8199,
   Char.ofNat 8200, Char.ofNat 8201, Char.ofNat 8202,
   Char.ofNat 8232, Char.ofNat 8233, Char.ofNat 8239, Char.ofNat 8287,
   Char.ofNat 12288]

/-- Whitespace test: membership in the Unicode whitespace class. -/
def isWsChar (c : Char) : Bool := decide (c ∈ wsChars)

/-- A character accepted by `isWsChar` is one of the listed whitespace
code points. -/
theorem ws_mem (c : Char) (h : isWsChar c = true) : c ∈ wsChars := by
  simpa [isWsChar] using h

/-- The ASCII single-quote character (spelled via its code point). -/
def squote : Char := Char.ofNat 39

/-- The quote characters accepted by the clause regexes (`["\']`). -/
def isQuoteChar (c : Char) : Bool :=
  c = '"' || c = squote

/-- `True` iff the list starts with a whitespace character. -/
def headWs : List Char → Bool
  | [] => false
  | c :: _ => isWsChar c

/-- Python `str.strip()`: drop leading and trailing whitespace. -/
def pyStrip (s : List Char) : List Char :=
  ((s.dropWhile isWsChar).reverse.dropWhile isWsChar).reverse

/-- The typographic-quote normalization
`s.replace("“",'"').replace("”",'"').replace("’","'").replace("‘","'")`;
since every pattern is a single character and no replacement is itself
a curly quote, the four sequential replacements act as one character map. -/
def normQuote (c : Char) : Char :=
  if c = '“' || c = '”' then '"'
  else if c = '’' || c = '‘' then squote
  else c

theorem lengthDropWhileLe (p : Char → Bool) (l : List Char) :
    (l.dropWhile p).length ≤ l.length := by
  induction l with
  | nil => simp [List.dropWhile]
  | cons a t ih =>
    simp only [List.dropWhile]
    cases p a <;> simp <;> omega

/-- `re.sub(r'\s+', ' ', s)`: every maximal run of whitespace becomes a
single space. -/
def collapseWs : List Char → List Char
  | [] => []
  | a :: rest =>
    if isWsChar a then ' ' :: collapseWs (rest.dropWhile isWsChar)
    else a :: collapseWs rest
termination_by s => s.length
decreasing_by
  · exact Nat.lt_succ_of_le (lengthDropWhileLe _ _)
  · simp

/-- `re.sub(r'\s{2,}', ' ', s)`: every run of two or more whitespace
characters becomes a single space; a lone whitespace character is left
as is. -/
def collapseMulti : List Char → List Char
  | [] => []
  | a :: rest =>
    if isWsChar a && headWs rest then ' ' :: collapseMulti (rest.dropWhile isWsChar)
    else a :: collapseMulti rest
termination_by s => s.length
decreasing_by
  · exact Nat.lt_succ_of_le (lengthDropWhileLe _ _)
  · simp

/-- `re.sub(r'\(\s+', '(', s)`: whitespace directly after an opening
parenthesis is removed. -/
def parenOpen : List Char → List Char
  | [] => []
  | a :: rest =>
    if a = '(' && headWs rest then '(' :: parenOpen (rest.dropWhile isWsChar)
    else a :: parenOpen rest
termination_by s => s.length
decreasing_by
  · exact Nat.lt_succ_of_le (lengthDropWhileLe _ _)
  · simp

/-- `True` iff the list starts with a closing parenthesis. -/
def headClose : List Char → Bool
  | [] => false
  | c :: _ => c = ')'

theorem lengthTailDropLt (p : Char → Bool) (l : List Char) :
    (l.dropWhile p).tail.length < l.length + 1 := by
  have := lengthDropWhileLe p l
  simp only [List.length_tail]
  omega

/-- `re.sub(r'\s+\)', ')', s)`: a whitespace run directly before a
closing parenthesis is removed (together with the parenthesis the match
is replaced by a single `)`).  Scanning is left to right; on failure
the scan advances one character, exactly as `re.sub` does. -/
def parenClose : List Char → List Char
  | [] => []
  | a :: rest =>
    if isWsChar a && headClose (rest.dropWhile isWsChar) then
      ')' :: parenClose (rest.dropWhile isWsChar).tail
    else a :: parenClose rest
termination_by s => s.length
decreasing_by
  · simp only [List.length_cons]
    exact lengthTailDropLt _ _
  · simp

/-- `beginsWith p s` is `true` iff `p` is an initial segment of `s`. -/
def beginsWith : List Char → List Char → Bool
  | [], _ => true
  | _ :: _, [] => false
  | p :: ps, c :: cs => p = c && beginsWith ps cs

/-- `containsSub p s` is `true` iff `p` occurs as a contiguous
substring of `s`. -/
def containsSub (pat : List Char) : List Char → Bool
  | [] => beginsWith pat []
  | c :: rest => beginsWith pat (c :: rest) || containsSub pat rest

/-- Python `str.replace(pat, rep)` for a nonempty `pat`: left-to-right,
non-overlapping literal substitution, resuming after each replaced
occurrence. -/
def replaceSub (pat rep : List Char) : List Char → List Char
  | [] => []
  | a :: rest =>
    if h : pat ≠ [] ∧ beginsWith pat (a :: rest) = true then
      rep ++ replaceSub pat rep ((a :: rest).drop pat.length)
    else a :: replaceSub pat rep rest
termination_by s => s.length
decreasing_by
  · simp only [List.length_drop, List.length_cons]
    have : pat.length ≠ 0 := fun hl => h.1 (List.length_eq_zero.mp hl)
    omega
  · simp

/-- The substitution table of the connective-uppercasing loop, in the
source's order: each spaced case variant is replaced by its spaced
uppercase form. -/
def opsSrc : List (List Char × List Char) :=
  [(" and ".data, " AND ".data), (" And ".data, " AND ".data), (" AND ".data, " AND ".data),
   (" or ".data, " OR ".data), (" Or ".data, " OR ".data), (" OR ".data, " OR ".data),
   (" andnot ".data, " ANDNOT ".data), (" Andnot ".data, " ANDNOT ".data),
   (" ANDNOT ".data, " ANDNOT ".data)]

/-- The connective-uppercasing loop: fold the nine literal
substitutions over the string in order. -/
def opsUpper (s : List Char) : List Char :=
  opsSrc.foldl (fun cur pr => replaceSub pr.1 pr.2 cur) s

/-- ASCII lowercasing, as used by `re.IGNORECASE` matching of the
literal `All Metadata`. -/
def charLower (c : Char) : Char :=
  if 'A' ≤ c && c ≤ 'Z' then Char.ofNat (c.toNat + 32) else c

/-- Match a lowercase literal case-insensitively at the head of the
input, returning the rest. -/
def matchLit : List Char → List Char → Option (List Char)
  | [], s => some s
  | _ :: _, [] => none
  | p :: ps, c :: cs => if charLower c = p then matchLit ps cs else none

/-- The field-name literal of both clause regexes, lowercased. -/
def allMetaLit : List Char := "all metadata".data

/-- Scanning loop of the non-greedy phrase match `(.+?)` followed by
the closing quote `q`: accumulate characters (none may be a newline,
since `.` does not match `\n`) until the first occurrence of `q`. -/
def phraseLoop (q : Char) : List Char → List Char → Option (List Char × List Char)
  | _, [] => none
  | acc, c :: rest =>
    if c = q then some (acc.reverse, rest)
    else if c = '\n' then none
    else phraseLoop q (c :: acc) rest

/-- `(.+?)q`: at least one non-newline character, then the closing
quote `q`; non-greedy, so the phrase ends at the first `q` (the very
first character is always part of the phrase). -/
def grabPhrase (q : Char) : List Char → Option (List Char × List Char)
  | [] => none
  | c :: rest => if c = '\n' then none else phraseLoop q [c] rest

/-- Attempt to match `(["\'])All Metadata\1\s*:\s*(["\'])(.+?)\2`
(with `re.IGNORECASE`) at the head of the input; on success return the
captured phrase and the rest of the input after the match. -/
def tryMatch1 (s : List Char) : Option (List Char × List Char) :=
  match s with
  | [] => none
  | q1 :: rest =>
    if isQuoteChar q1 then
      match matchLit allMetaLit rest with
      | none => none
      | some rest2 =>
        match rest2 with
        | [] => none
        | q1b :: rest3 =>
          if q1b = q1 then
            match rest3.dropWhile isWsChar with
            | [] => none
            | c4 :: rest4 =>
              if c4 = ':' then
                match rest4.dropWhile isWsChar with
                | [] => none
                | q2 :: rest5 => if isQuoteChar q2 then grabPhrase q2 rest5 else none
              else none
          else none
    else none

/-- Attempt to match `All Metadata\s*:\s*(["\'])(.+?)\1` (with
`re.IGNORECASE`) at the head of the input. -/
def tryMatch2 (s : List Char) : Option (List Char × List Char) :=
  match matchLit allMetaLit s with
  | none => none
  | some rest =>
    match rest.dropWhile isWsChar with
    | [] => none
    | c2 :: rest2 =>
      if c2 = ':' then
        match rest2.dropWhile isWsChar with
        | [] => none
        | q :: rest3 => if isQuoteChar q then grabPhrase q rest3 else none
      else none

theorem phraseLoop_rest_length (q : Char) (acc s : List Char) (pr : List Char × List Char)
    (h : phraseLoop q acc s = some pr) : pr.2.length < s.length := by
  induction s generalizing acc with
  | nil => simp [phraseLoop] at h
  | cons c rest ih =>
    simp only [phraseLoop] at h
    by_cases hq : c = q
    · rw [if_pos hq] at h
      have : pr.2 = rest := by cases h; rfl
      simp [this]
    · rw [if_neg hq] at h
      by_cases hn : c = '\n'
      · rw [if_pos hn] at h
        exact absurd h (by simp)
      · rw [if_neg hn] at h
        have := ih _ h
        simp only [List.length_cons]
        omega

theorem grabPhrase_rest_length (q : Char) (s : List Char) (pr : List Char × List Char)
    (h : grabPhrase q s = some pr) : pr.2.length < s.length := by
  cases s with
  | nil => simp [grabPhrase] at h
  | cons c rest =>
    simp only [grabPhrase] at h
    by_cases hn : c = '\n'
    · simp [hn] at h
    · simp [hn] at h
      have := phraseLoop_rest_length _ _ _ _ h
      simp only [List.length_cons]
      omega

theorem matchLit_length (lit s r : List Char) (h : matchLit lit s = some r) :
    r.length + lit.length = s.length := by
  induction lit generalizing s with
  | nil => simp [matchLit] at h; simp [h]
  | cons p ps ih =>
    cases s with
    | nil => simp [matchLit] at h
    | cons c cs =>
      simp only [matchLit] at h
      by_cases hc : charLower c = p
      · simp [hc] at h
        have := ih _ h
        simp only [List.length_cons]
        omega
      · simp [hc] at h

theorem tryMatch1_rest_length (s : List Char) (pr : List Char × List Char)
    (h : tryMatch1 s = some pr) : pr.2.length < s.length := by
  cases s with
  | nil => simp [tryMatch1] at h
  | cons q1 rest =>
    simp only [tryMatch1] at h
    by_cases hq : isQuoteChar q1 = true
    · simp only [hq, if_true] at h
      cases hm : matchLit allMetaLit rest with
      | none => simp [hm] at h
      | some rest2 =>
        have hlen2 := matchLit_length _ _ _ hm
        simp only [hm] at h
        cases rest2 with
        | nil => simp at h
        | cons q1b rest3 =>
          by_cases hb : q1b = q1
          · simp only [hb, if_true] at h
            cases hd : rest3.dropWhile isWsChar with
            | nil => simp [hd] at h
            | cons c4 rest4 =>
              have hlen3 : (rest3.dropWhile isWsChar).length ≤ rest3.length :=
                lengthDropWhileLe _ _
              rw [hd] at hlen3
              simp only [hd] at h
              by_cases hc : c4 = ':'
              · simp only [hc, if_true] at h
                cases hd2 : rest4.dropWhile isWsChar with
                | nil => simp [hd2] at h
                | cons q2 rest5 =>
                  have hlen4 : (rest4.dropWhile isWsChar).length ≤ rest4.length :=
                    lengthDropWhileLe _ _
                  rw [hd2] at hlen4
                  simp only [hd2] at h
                  by_cases hq2 : isQuoteChar q2 = true
                  · simp only [hq2, if_true] at h
                    have := grabPhrase_rest_length _ _ _ h
                    simp only [List.length_cons] at hlen2 hlen3 hlen4 ⊢
                    omega
                  · simp [hq2] at h
              · simp [hc] at h
          · simp [hb] at h
    · simp [hq] at h

theorem tryMatch2_rest_length (s : List Char) (pr : List Char × List Char)
    (h : tryMatch2 s = some pr) : pr.2.length < s.length := by
  simp only [tryMatch2] at h
  cases hm : matchLit allMetaLit s with
  | none => simp [hm] at h
  | some rest =>
    have hlen2 := matchLit_length _ _ _ hm
    simp only [hm] at h
    cases hd : rest.dropWhile isWsChar with
    | nil => simp [hd] at h
    | cons c2 rest2 =>
      have hlen3 : (rest.dropWhile isWsChar).length ≤ rest.length :=
        lengthDropWhileLe _ _
      rw [hd] at hlen3
      simp only [hd] at h
      by_cases hc : c2 = ':'
      · simp only [hc, if_true] at h
        cases hd2 : rest2.dropWhile isWsChar with
        | nil => simp [hd2] at h
        | cons q rest3 =>
          have hlen4 : (rest2.dropWhile isWsChar).length ≤ rest2.length :=
            lengthDropWhileLe _ _
          rw [hd2] at hlen4
          simp only [hd2] at h
          by_cases hq : isQuoteChar q = true
          · simp only [hq, if_true] at h
            have := grabPhrase_rest_length _ _ _ h
            simp only [List.length_cons] at hlen3 hlen4 ⊢
            simp only [allMetaLit] at hlen2
            simp at hlen2
            omega
          · simp [hq] at h
      · simp [hc] at h

/-- `re.sub` with the quoted-field clause pattern and replacement
`all:"\3"`: scan left to right, replacing each match and resuming
after it. -/
def subMeta1 : List Char → List Char
  | [] => []
  | a :: rest =>
    match h : tryMatch1 (a :: rest) with
    | some pr => "all:\"".data ++ pr.1 ++ '"' :: subMeta1 pr.2
    | none => a :: subMeta1 rest
termination_by s => s.length
decreasing_by
  · exact tryMatch1_rest_length _ _ h
  · simp

/-- `re.sub` with the unquoted-field clause pattern and replacement
`all:"\2"`. -/
def subMeta2 : List Char → List Char
  | [] => []
  | a :: rest =>
    match h : tryMatch2 (a :: rest) with
    | some pr => "all:\"".data ++ pr.1 ++ '"' :: subMeta2 pr.2
    | none => a :: subMeta2 rest
termination_by s => s.length
decreasing_by
  · exact tryMatch2_rest_length _ _ h
  · simp

/-- The whole translator `normalize_command_search_to_arxiv`, on
character lists, composing the source's steps in order. -/
def normalizeList (s : List Char) : List Char :=
  pyStrip (collapseMulti (parenClose (parenOpen
    (subMeta2 (subMeta1 (opsUpper (collapseWs ((pyStrip s).map normQuote))))))))

/-- The query translator of `Export.py`. -/
def normalize_command_search_to_arxiv (s : String) : String :=
  String.mk (normalizeList s.data)

/-! ### Basic lemmas about `beginsWith`, `containsSub` and `replaceSub` -/

theorem beginsWith_iff (p s : List Char) :
    beginsWith p s = true ↔ ∃ t, s = p ++ t := by
  induction p generalizing s with
  | nil => simp [beginsWith]
  | cons x xs ih =>
    cases s with
    | nil => simp [beginsWith]
    | cons c cs =>
      simp only [beginsWith, Bool.and_eq_true, decide_eq_true_eq, ih, List.cons_append]
      constructor
      · rintro ⟨rfl, t, rfl⟩
        exact ⟨t, rfl⟩
      · rintro ⟨t, h⟩
        cases h
        exact ⟨rfl, t, rfl⟩

theorem containsSub_iff (p s : List Char) :
    containsSub p s = true ↔ ∃ u v, s = u ++ p ++ v := by
  induction s with
  | nil =>
    simp only [containsSub, beginsWith_iff]
    constructor
    · rintro ⟨t, h⟩
      exact ⟨[], t, by simpa using h⟩
    · rintro ⟨u, v, h⟩
      exact ⟨v, by rcases u with _ | _ <;> simp_all⟩
  | cons c rest ih =>
    simp only [containsSub, Bool.or_eq_true, beginsWith_iff, ih]
    constructor
    · rintro (⟨t, h⟩ | ⟨u, v, h⟩)
      · exact ⟨[], t, by simpa using h⟩
      · exact ⟨c :: u, v, by simp [h]⟩
    · rintro ⟨u, v, h⟩
      cases u with
      | nil => exact Or.inl ⟨v, by simpa using h⟩
      | cons x u' =>
        right
        simp only [List.cons_append, List.append_assoc] at h
        injection h with h1 h2
        exact ⟨u', v, by simpa [List.append_assoc] using h2⟩

theorem containsSub_mem (p s : List Char) (h : containsSub p s = true) :
    ∀ c ∈ p, c ∈ s := by
  rw [containsSub_iff] at h
  rcases h with ⟨u, v, rfl⟩
  intro c hc
  simp [hc]

theorem not_containsSub_of_not_mem (p s : List Char) (c : Char)
    (hc : c ∈ p) (hs : c ∉ s) : containsSub p s = false := by
  by_contra h
  exact hs (containsSub_mem p s (by simpa using h) c hc)

theorem containsSub_append_or (p a b : List Char)
    (h : containsSub p (a ++ b) = true) :
    containsSub p a = true ∨ containsSub p b = true ∨
      ∃ p1 p2, p = p1 ++ p2 ∧ p1 ≠ [] ∧ p2 ≠ [] ∧ p1 <:+ a ∧ p2 <+: b := by
  rw [containsSub_iff] at h
  rcases h with ⟨u, v, h⟩
  rw [List.append_assoc] at h
  rcases List.append_eq_append_iff.mp h with ⟨w, hw1, hw2⟩ | ⟨w, hw1, hw2⟩
  · -- u = a ++ w : the occurrence lies inside b
    right; left
    rw [containsSub_iff]
    exact ⟨w, v, by simpa using hw2⟩
  · -- a = u ++ w and p ++ v = w ++ b
    rcases List.append_eq_append_iff.mp hw2 with ⟨t, ht1, ht2⟩ | ⟨t, ht1, ht2⟩
    · -- w = p ++ t : occurrence inside a
      left
      rw [containsSub_iff]
      exact ⟨u, t, by simp [hw1, ht1]⟩
    · -- p = w ++ t and b = t ++ v : possible span
      cases hw : w with
      | nil =>
        right; left
        rw [containsSub_iff]
        subst hw
        simp only [List.nil_append] at ht1
        exact ⟨[], v, by simp [ht2, ← ht1]⟩
      | cons x xs =>
        cases htn : t with
        | nil =>
          left
          rw [containsSub_iff]
          subst htn
          simp only [List.append_nil] at ht1
          exact ⟨u, [], by simp [hw1, ← ht1]⟩
        | cons y ys =>
          right; right
          exact ⟨w, t, ht1, by simp [hw], by simp [htn], ⟨u, hw1.symm⟩, ⟨v, ht2.symm⟩⟩

theorem containsSub_append_or_of_barrier (p a b : List Char)
    (hb : ∀ c, b.head? = some c → c ∉ p)
    (h : containsSub p (a ++ b) = true) :
    containsSub p a = true ∨ containsSub p b = true := by
  rcases containsSub_append_or p a b h with h' | h' | ⟨p1, p2, hp, _, hp2, _, hpre⟩
  · exact Or.inl h'
  · exact Or.inr h'
  · exfalso
    cases p2 with
    | nil => exact absurd rfl hp2
    | cons x xs =>
      rcases hpre with ⟨t, ht⟩
      have hx : b.head? = some x := by rw [← ht]; rfl
      exact hb x hx (by simp [hp])

theorem replaceSub_id_of_not_contains (pat rep s : List Char)
    (h : containsSub pat s = false) : replaceSub pat rep s = s := by
  induction s with
  | nil => simp [replaceSub]
  | cons a rest ih =>
    rw [replaceSub]
    simp only [containsSub, Bool.or_eq_false_iff] at h
    rw [dif_neg (by simp [h.1]), ih h.2]

theorem replaceSub_self (pat s : List Char) : replaceSub pat pat s = s := by
  have H : ∀ n (s : List Char), s.length ≤ n → replaceSub pat pat s = s := by
    intro n
    induction n with
    | zero =>
      intro s hs
      have : s = [] := List.length_eq_zero.mp (Nat.le_zero.mp hs)
      simp [this, replaceSub]
    | succ n ih =>
      intro s hs
      cases s with
      | nil => simp [replaceSub]
      | cons a rest =>
        rw [replaceSub]
        by_cases h : pat ≠ [] ∧ beginsWith pat (a :: rest) = true
        · rw [dif_pos h]
          rcases (beginsWith_iff _ _).mp h.2 with ⟨t, ht⟩
          have hdrop : (a :: rest).drop pat.length = t := by
            rw [ht, List.drop_left]
          have hp : pat.length ≠ 0 := fun h0 => h.1 (List.length_eq_zero.mp h0)
          have htl : t.length ≤ n := by
            have hlen := congrArg List.length ht
            simp only [List.length_cons, List.length_append] at hlen
            simp only [List.length_cons] at hs
            omega
          rw [hdrop, ih t htl, ← ht]
        · rw [dif_neg h]
          congr 1
          exact ih rest (by simp only [List.length_cons] at hs; omega)
  exact H s.length s le_rfl

/-! ### Whitespace-shape predicates and identity lemmas for the stages -/

/-- No two adjacent characters of the list satisfy `bad`. -/
def noPairB (bad : Char → Char → Bool) : List Char → Bool
  | [] => true
  | [_] => true
  | a :: b :: rest => !bad a b && noPairB bad (b :: rest)

/-- Every whitespace character of the list is a plain space. -/
def allSpaceWs (s : List Char) : Bool :=
  s.all fun c => !isWsChar c || c = ' '

/-- Whitespace-normal form: only plain spaces, never two adjacent. -/
def wsnB (s : List Char) : Bool :=
  allSpaceWs s && noPairB (fun a b => isWsChar a && isWsChar b) s

/-- No opening parenthesis is directly followed by whitespace. -/
def noOpenWsB (s : List Char) : Bool :=
  noPairB (fun a b => a = '(' && isWsChar b) s

/-- No whitespace character directly precedes a closing parenthesis. -/
def noCloseWsB (s : List Char) : Bool :=
  noPairB (fun a b => isWsChar a && b = ')') s

theorem noPairB_tail (bad : Char → Char → Bool) (a : Char) (rest : List Char)
    (h : noPairB bad (a :: rest) = true) : noPairB bad rest = true := by
  cases rest with
  | nil => rfl
  | cons b bs => exact (Bool.and_eq_true .. ▸ h).2

theorem noPairB_head (bad : Char → Char → Bool) (a b : Char) (rest : List Char)
    (h : noPairB bad (a :: b :: rest) = true) : bad a b = false := by
  have := (Bool.and_eq_true .. ▸ h).1
  simpa using this


theorem noPairB_append (bad : Char → Char → Bool) (a b : List Char) :
    noPairB bad (a ++ b) = true ↔
      noPairB bad a = true ∧ noPairB bad b = true ∧
        (∀ x y, a.getLast? = some x → b.head? = some y → bad x y = false) := by
  induction a with
  | nil => simp [noPairB]
  | cons x a' ih =>
    cases a' with
    | nil =>
      cases b with
      | nil => simp [noPairB]
      | cons y bs =>
        show (!bad x y && noPairB bad (y :: bs)) = true ↔ _
        simp only [Bool.and_eq_true, Bool.not_eq_true']
        constructor
        · rintro ⟨h1, h2⟩
          refine ⟨rfl, h2, fun x' y' hx hy => ?_⟩
          simp only [List.getLast?_singleton, Option.some.injEq] at hx
          simp only [List.head?_cons, Option.some.injEq] at hy
          rw [← hx, ← hy]; exact h1
        · rintro ⟨-, h2, h3⟩
          exact ⟨h3 x y (by simp) (by simp), h2⟩
    | cons x2 a'' =>
      show (!bad x x2 && noPairB bad (x2 :: (a'' ++ b))) = true ↔ _
      have ih' : noPairB bad (x2 :: (a'' ++ b)) = true ↔
          noPairB bad (x2 :: a'') = true ∧ noPairB bad b = true ∧
            (∀ x' y', (x2 :: a'').getLast? = some x' → b.head? = some y' →
              bad x' y' = false) := by
        simpa using ih
      simp only [Bool.and_eq_true, Bool.not_eq_true', ih']
      constructor
      · rintro ⟨h1, h2, h3, h4⟩
        refine ⟨?_, h3, fun x' y' hx hy => h4 x' y' ?_ hy⟩
        · show (!bad x x2 && noPairB bad (x2 :: a'')) = true
          simp [h1, h2]
        · simpa using hx
      · rintro ⟨h12, h3, h4⟩
        have h1 : bad x x2 = false := by
          have := noPairB_head bad x x2 a'' h12
          exact this
        have h2 : noPairB bad (x2 :: a'') = true := noPairB_tail bad x _ h12
        exact ⟨h1, h2, h3, fun x' y' hx hy => h4 x' y' (by simpa using hx) hy⟩

theorem allSpaceWs_iff (s : List Char) :
    allSpaceWs s = true ↔ ∀ c ∈ s, isWsChar c = true → c = ' ' := by
  simp only [allSpaceWs, List.all_eq_true, Bool.or_eq_true, Bool.not_eq_true',
    decide_eq_true_eq]
  constructor
  · intro h c hc hw
    rcases h c hc with h' | h'
    · rw [hw] at h'; cases h'
    · exact h'
  · intro h c hc
    by_cases hw : isWsChar c = true
    · exact Or.inr (h c hc hw)
    · exact Or.inl (by simpa using hw)

theorem allSpaceWs_tail (a : Char) (rest : List Char)
    (h : allSpaceWs (a :: rest) = true) : allSpaceWs rest = true := by
  simp only [allSpaceWs, List.all_cons, Bool.and_eq_true] at h
  exact h.2

theorem wsnB_split (s : List Char) :
    wsnB s = true ↔ allSpaceWs s = true ∧
      noPairB (fun x y => isWsChar x && isWsChar y) s = true := by
  simp [wsnB, Bool.and_eq_true]

theorem wsnB_tail (a : Char) (rest : List Char) (h : wsnB (a :: rest) = true) :
    wsnB rest = true := by
  rw [wsnB_split] at h ⊢
  exact ⟨allSpaceWs_tail _ _ h.1, noPairB_tail _ _ _ h.2⟩

theorem wsnB_space (a : Char) (rest : List Char) (h : wsnB (a :: rest) = true)
    (hws : isWsChar a = true) : a = ' ' :=
  (allSpaceWs_iff _ |>.mp ((wsnB_split _).mp h).1) a (by simp) hws

theorem wsnB_headWs_tail (a : Char) (rest : List Char) (h : wsnB (a :: rest) = true)
    (hws : isWsChar a = true) : headWs rest = false := by
  cases rest with
  | nil => rfl
  | cons b bs =>
    have h2 := ((wsnB_split _).mp h).2
    have hp := noPairB_head _ a b bs h2
    by_cases hb : isWsChar b = true
    · rw [hws, hb] at hp; cases hp
    · simp [headWs, hb]

theorem dropWhile_headNot (s : List Char) (h : headWs s = false) :
    s.dropWhile isWsChar = s := by
  cases s with
  | nil => rfl
  | cons c cs =>
    simp only [headWs] at h
    simp [List.dropWhile, h]

theorem dropWhile_append_all (l r : List Char) (h : l.all isWsChar = true) :
    (l ++ r).dropWhile isWsChar = r.dropWhile isWsChar := by
  induction l with
  | nil => rfl
  | cons c cs ih =>
    simp only [List.all_cons, Bool.and_eq_true] at h
    simp [List.dropWhile, h.1, ih h.2]

theorem collapseWs_nil : collapseWs [] = [] := by rw [collapseWs]

theorem collapseWs_id (s : List Char) (h : wsnB s = true) : collapseWs s = s := by
  induction s with
  | nil => exact collapseWs_nil
  | cons a rest ih =>
    rw [collapseWs]
    by_cases hws : isWsChar a = true
    · rw [if_pos hws, dropWhile_headNot _ (wsnB_headWs_tail a rest h hws),
        ih (wsnB_tail _ _ h), wsnB_space a rest h hws]
    · rw [if_neg hws, ih (wsnB_tail _ _ h)]

theorem collapseMulti_nil : collapseMulti [] = [] := by rw [collapseMulti]

theorem collapseMulti_id (s : List Char) (h : wsnB s = true) : collapseMulti s = s := by
  induction s with
  | nil => exact collapseMulti_nil
  | cons a rest ih =>
    rw [collapseMulti]
    have hcond : (isWsChar a && headWs rest) = false := by
      by_cases hws : isWsChar a = true
      · rw [hws, wsnB_headWs_tail a rest h hws]; rfl
      · rw [Bool.eq_false_iff.mpr hws]; rfl
    rw [hcond]
    simp only [Bool.false_eq_true, if_false]
    rw [ih (wsnB_tail _ _ h)]

theorem parenOpen_nil : parenOpen [] = [] := by rw [parenOpen]

theorem parenOpen_id (s : List Char) (h : noOpenWsB s = true) : parenOpen s = s := by
  induction s with
  | nil => exact parenOpen_nil
  | cons a rest ih =>
    rw [parenOpen]
    have hcond : (a = '(' && headWs rest) = false := by
      cases rest with
      | nil => simp [headWs]
      | cons b bs =>
        have hpair := noPairB_head _ a b bs h
        by_cases ha : a = '('
        · by_cases hb : isWsChar b = true
          · rw [ha, hb] at hpair
            simp at hpair
          · simp [headWs, hb]
        · simp [ha]
    rw [hcond]
    simp only [Bool.false_eq_true, if_false]
    rw [ih (noPairB_tail _ _ _ h)]

theorem headClose_dropWhile_false (rest : List Char) (a : Char)
    (h : noCloseWsB (a :: rest) = true) (hws : isWsChar a = true) :
    headClose (rest.dropWhile isWsChar) = false := by
  induction rest generalizing a with
  | nil => rfl
  | cons b bs ih =>
    have hpair := noPairB_head _ a b bs h
    have hb : b ≠ ')' := by
      intro hb
      rw [hws, hb] at hpair
      simp at hpair
    by_cases hwb : isWsChar b = true
    · rw [show (b :: bs).dropWhile isWsChar = bs.dropWhile isWsChar by
        simp [List.dropWhile, hwb]]
      exact ih b (noPairB_tail _ _ _ h) hwb
    · rw [dropWhile_headNot _ (by simp [headWs, hwb])]
      simp [headClose, hb]

theorem parenClose_nil : parenClose [] = [] := by rw [parenClose]

theorem parenClose_id (s : List Char) (h : noCloseWsB s = true) : parenClose s = s := by
  induction s with
  | nil => exact parenClose_nil
  | cons a rest ih =>
    rw [parenClose]
    have hcond : (isWsChar a && headClose (rest.dropWhile isWsChar)) = false := by
      by_cases hws : isWsChar a = true
      · rw [headClose_dropWhile_false rest a h hws]; simp
      · rw [Bool.eq_false_iff.mpr hws]; rfl
    rw [hcond]
    simp only [Bool.false_eq_true, if_false]
    rw [ih (noPairB_tail _ _ _ h)]

theorem pyStrip_id (s : List Char) (h1 : headWs s = false)
    (h2 : headWs s.reverse = false) : pyStrip s = s := by
  unfold pyStrip
  rw [dropWhile_headNot _ h1, dropWhile_headNot _ h2, List.reverse_reverse]

theorem map_normQuote_id (s : List Char) (h : ∀ c ∈ s, normQuote c = c) :
    s.map normQuote = s := by
  induction s with
  | nil => rfl
  | cons c cs ih =>
    simp only [List.map_cons, h c (by simp), ih fun c' hc' => h c' (by simp [hc']),
      List.cons.injEq, and_self]

/-- The four typographic quote characters replaced by the translator. -/
def isCurly (c : Char) : Bool :=
  c = '“' || c = '”' || c = '’' || c = '‘'

theorem normQuote_id_of_not_curly (c : Char) (h : isCurly c = false) :
    normQuote c = c := by
  simp only [isCurly, Bool.or_eq_false_iff, decide_eq_false_iff_not] at h
  simp [normQuote, h.1.1.1, h.1.1.2, h.1.2, h.2]

theorem collapseWs_append (a b : List Char) (ha : wsnB a = true)
    (hb : headWs b = false) : collapseWs (a ++ b) = a ++ collapseWs b := by
  induction a with
  | nil => rfl
  | cons x a' ih =>
    rw [List.cons_append, collapseWs]
    by_cases hws : isWsChar x = true
    · have hdrop : (a' ++ b).dropWhile isWsChar = a' ++ b := by
        cases a' with
        | nil => simpa using dropWhile_headNot b hb
        | cons y a'' =>
          have hy := wsnB_headWs_tail x (y :: a'') ha hws
          simp only [headWs] at hy
          exact dropWhile_headNot _ (by simp [headWs, hy])
      rw [if_pos hws, hdrop, wsnB_space x a' ha hws, ih (wsnB_tail _ _ ha),
        List.cons_append]
    · rw [if_neg hws, ih (wsnB_tail _ _ ha), List.cons_append]

theorem collapseWs_wsrun (w r : List Char) (hw : w ≠ []) (hall : w.all isWsChar = true)
    (hr : headWs r = false) : collapseWs (w ++ r) = ' ' :: collapseWs r := by
  cases w with
  | nil => exact absurd rfl hw
  | cons c w' =>
    simp only [List.all_cons, Bool.and_eq_true] at hall
    rw [List.cons_append, collapseWs, if_pos hall.1,
      dropWhile_append_all _ _ hall.2, dropWhile_headNot _ hr]

/-! ### Further utilities: matching, case folding, membership -/

theorem containsSub_nil (p : List Char) (hp : p ≠ []) : containsSub p [] = false := by
  cases p with
  | nil => exact absurd rfl hp
  | cons x xs => rfl

theorem containsSub_cons (p : List Char) (c : Char) (t : List Char) :
    containsSub p (c :: t) = (beginsWith p (c :: t) || containsSub p t) := rfl

theorem containsSub_of_begins (p s : List Char) (h : beginsWith p s = true) :
    containsSub p s = true := by
  cases s with
  | nil =>
    cases p with
    | nil => rfl
    | cons x xs => simp [beginsWith] at h
  | cons c t => simp [containsSub_cons, h]

theorem containsSub_cons_of (p : List Char) (c : Char) (t : List Char)
    (h : containsSub p t = true) : containsSub p (c :: t) = true := by
  simp [containsSub_cons, h]

theorem containsSub_map (f : Char → Char) (p s : List Char)
    (h : containsSub p s = true) : containsSub (p.map f) (s.map f) = true := by
  rw [containsSub_iff] at h ⊢
  rcases h with ⟨u, v, rfl⟩
  exact ⟨u.map f, v.map f, by simp⟩

theorem isQuoteChar_iff (c : Char) : isQuoteChar c = true ↔ c = '"' ∨ c = squote := by
  simp [isQuoteChar]

theorem ws_charLower_self (c : Char) (h : isWsChar c = true) : charLower c = c :=
  (show ∀ d ∈ wsChars, charLower d = d by decide) c (ws_mem c h)

theorem wsnB_mem_space (s : List Char) (h : wsnB s = true) (c : Char) (hc : c ∈ s)
    (hw : isWsChar c = true) : c = ' ' :=
  (allSpaceWs_iff _ |>.mp ((wsnB_split _).mp h).1) c hc hw

theorem wsnB_no_newline (s : List Char) (h : wsnB s = true) (c : Char) (hc : c ∈ s) :
    c ≠ '\n' := by
  intro hnl
  subst hnl
  have := wsnB_mem_space s h _ hc (by decide)
  cases this

theorem am_mem_lower (am : List Char) (ham : am.map charLower = allMetaLit)
    (c : Char) (hc : c ∈ am) : charLower c ∈ allMetaLit := by
  rw [← ham]
  exact List.mem_map_of_mem charLower hc

theorem am_no_curly (am : List Char) (ham : am.map charLower = allMetaLit)
    (c : Char) (hc : c ∈ am) : isCurly c = false := by
  by_contra h
  have hcur : isCurly c = true := by simpa using h
  have hmem := am_mem_lower am ham c hc
  simp only [isCurly, Bool.or_eq_true, decide_eq_true_eq] at hcur
  rcases hcur with ((h' | h') | h') | h' <;> subst h' <;>
    simp [show charLower '“' = '“' from rfl, show charLower '”' = '”' from rfl,
      show charLower '’' = '’' from rfl, show charLower '‘' = '‘' from rfl,
      allMetaLit] at hmem <;> revert hmem <;> decide

theorem am_no_ws_pair (am : List Char) (ham : am.map charLower = allMetaLit) :
    noPairB (fun x y => isWsChar x && isWsChar y) am = true := by
  have H : ∀ (a : List Char) (l : List Char), a.map charLower = l →
      noPairB (fun x y => isWsChar x && isWsChar y) l = true →
      noPairB (fun x y => isWsChar x && isWsChar y) a = true := by
    intro a
    induction a with
    | nil => intro l _ _; rfl
    | cons c a' ih =>
      intro l hl hnp
      cases a' with
      | nil => rfl
      | cons d a'' =>
        simp only [List.map_cons] at hl
        subst hl
        have hpair := noPairB_head _ (charLower c) (charLower d) _ hnp
        show (!(isWsChar c && isWsChar d) &&
          noPairB (fun x y => isWsChar x && isWsChar y) (d :: a'')) = true
        have h1 : (isWsChar c && isWsChar d) = false := by
          by_cases hc : isWsChar c = true
          · by_cases hd : isWsChar d = true
            · rw [ws_charLower_self c hc, ws_charLower_self d hd, hc, hd] at hpair
              cases hpair
            · simp [Bool.eq_false_iff.mpr hd]
          · simp [Bool.eq_false_iff.mpr hc]
        rw [h1]
        simpa using ih (charLower d :: a''.map charLower) rfl (noPairB_tail _ _ _ hnp)
  exact H am allMetaLit ham (by decide)

theorem am_wsn (am : List Char) (ham : am.map charLower = allMetaLit) :
    wsnB am = true := by
  rw [wsnB_split]
  refine ⟨(allSpaceWs_iff _).mpr fun c hc hw => ?_, am_no_ws_pair am ham⟩
  have hmem := am_mem_lower am ham c hc
  rw [ws_charLower_self c hw] at hmem
  exact (show ∀ d ∈ allMetaLit, d ∈ wsChars → d = ' ' by decide) c hmem (ws_mem c hw)

theorem matchLit_append_of_mapLower (am : List Char) (lit : List Char) (r : List Char)
    (h : am.map charLower = lit) : matchLit lit (am ++ r) = some r := by
  induction am generalizing lit with
  | nil => rw [← h]; rfl
  | cons c am' ih =>
    rw [← h]
    simp only [List.map_cons, List.cons_append, matchLit, if_pos rfl]
    exact ih _ rfl

theorem matchLit_some_begins (lit s r : List Char) (h : matchLit lit s = some r) :
    beginsWith lit (s.map charLower) = true := by
  induction lit generalizing s with
  | nil => rfl
  | cons p ps ih =>
    cases s with
    | nil => simp [matchLit] at h
    | cons c cs =>
      simp only [matchLit] at h
      by_cases hc : charLower c = p
      · simp only [hc, if_true] at h
        simp only [List.map_cons, beginsWith, Bool.and_eq_true, decide_eq_true_eq]
        exact ⟨hc.symm, ih cs h⟩
      · simp [hc] at h

theorem phraseLoop_exact (q : Char) (Y r acc : List Char)
    (hq : ∀ c ∈ Y, c ≠ q) (hnl : ∀ c ∈ Y, c ≠ '\n') :
    phraseLoop q acc (Y ++ q :: r) = some (acc.reverse ++ Y, r) := by
  induction Y generalizing acc with
  | nil => simp [phraseLoop]
  | cons y Y' ih =>
    have hyq : y ≠ q := hq y (by simp)
    have hynl : y ≠ '\n' := hnl y (by simp)
    simp only [List.cons_append, phraseLoop, if_neg hyq, if_neg hynl, List.append_eq]
    rw [ih (y :: acc) (fun c hc => hq c (by simp [hc])) (fun c hc => hnl c (by simp [hc]))]
    simp

theorem grabPhrase_exact (q : Char) (X r : List Char) (hX : X ≠ [])
    (hq : ∀ c ∈ X, c ≠ q) (hnl : ∀ c ∈ X, c ≠ '\n') :
    grabPhrase q (X ++ q :: r) = some (X, r) := by
  cases X with
  | nil => exact absurd rfl hX
  | cons x X' =>
    simp only [List.cons_append, grabPhrase, if_neg (hnl x (by simp))]
    rw [phraseLoop_exact q X' r [x] (fun c hc => hq c (by simp [hc]))
      (fun c hc => hnl c (by simp [hc]))]
    simp

theorem tryMatch2_none_of_not_contains (s : List Char)
    (h : containsSub allMetaLit (s.map charLower) = false) : tryMatch2 s = none := by
  cases hm : matchLit allMetaLit s with
  | none => simp [tryMatch2, hm]
  | some r =>
    exfalso
    have := containsSub_of_begins _ _ (matchLit_some_begins _ _ _ hm)
    rw [h] at this
    cases this

theorem subMeta2_nil : subMeta2 [] = [] := by rw [subMeta2]

theorem subMeta2_id_of_not_contains (s : List Char)
    (h : containsSub allMetaLit (s.map charLower) = false) : subMeta2 s = s := by
  induction s with
  | nil => exact subMeta2_nil
  | cons a rest ih =>
    rw [subMeta2]
    rw [tryMatch2_none_of_not_contains _ h]
    have hrest : containsSub allMetaLit (rest.map charLower) = false := by
      by_contra h'
      have h'' : containsSub allMetaLit (rest.map charLower) = true := by simpa using h'
      have := containsSub_cons_of _ (charLower a) _ h''
      rw [show charLower a :: rest.map charLower = (a :: rest).map charLower from rfl] at this
      rw [h] at this
      cases this
    rw [ih hrest]

theorem subMeta1_nil : subMeta1 [] = [] := by rw [subMeta1]

theorem wsnB_append (a b : List Char) :
    wsnB (a ++ b) = true ↔ wsnB a = true ∧ wsnB b = true ∧
      (∀ x y, a.getLast? = some x → b.head? = some y →
        (isWsChar x && isWsChar y) = false) := by
  have hall : allSpaceWs (a ++ b) = (allSpaceWs a && allSpaceWs b) := by
    simp [allSpaceWs, List.all_append]
  constructor
  · intro h
    rw [wsnB_split, hall, Bool.and_eq_true] at h
    have hnp := (noPairB_append _ a b).mp h.2
    exact ⟨(wsnB_split a).mpr ⟨h.1.1, hnp.1⟩, (wsnB_split b).mpr ⟨h.1.2, hnp.2.1⟩,
      hnp.2.2⟩
  · rintro ⟨ha, hb, hbd⟩
    rw [wsnB_split] at ha hb
    rw [wsnB_split, hall, Bool.and_eq_true]
    exact ⟨by rw [ha.1, hb.1]; exact ⟨rfl, rfl⟩, (noPairB_append _ a b).mpr ⟨ha.2, hb.2, hbd⟩⟩

theorem wsnB_singleton_nonws (c : Char) (h : isWsChar c = false) : wsnB [c] = true := by
  rw [wsnB_split]
  refine ⟨?_, rfl⟩
  simp [allSpaceWs, h]

theorem ws_not_curly (c : Char) (h : isWsChar c = true) : isCurly c = false :=
  (show ∀ d ∈ wsChars, isCurly d = false by decide) c (ws_mem c h)

theorem headWs_append_last (l : List Char) (x : Char) (hl : l ≠ []) :
    headWs (l ++ [x]) = headWs l := by
  cases l with
  | nil => exact absurd rfl hl
  | cons c cs => rfl

theorem collapseWs_cons_nonws (c : Char) (r : List Char) (h : isWsChar c = false) :
    collapseWs (c :: r) = c :: collapseWs r := by
  rw [collapseWs, if_neg (by simp [h])]

theorem collapseWs_append_lastNot (a b : List Char) (ha : wsnB a = true)
    (hlast : headWs a.reverse = false) : collapseWs (a ++ b) = a ++ collapseWs b := by
  induction a with
  | nil => rfl
  | cons x a' ih =>
    by_cases hws : isWsChar x = true
    · have hx : x = ' ' := wsnB_space x a' ha hws
      have hha : headWs a' = false := wsnB_headWs_tail x a' ha hws
      cases a' with
      | nil =>
        exfalso
        simp only [List.reverse_cons, List.reverse_nil, List.nil_append, headWs] at hlast
        rw [hws] at hlast
        cases hlast
      | cons y a'' =>
        simp only [headWs] at hha
        rw [List.cons_append, collapseWs, if_pos hws]
        have hdw : ((y :: a'') ++ b).dropWhile isWsChar = (y :: a'') ++ b := by
          exact dropWhile_headNot _ (by simp [headWs, hha])
        rw [hdw, hx]
        have hlast' : headWs (y :: a'').reverse = false := by
          have : (x :: y :: a'').reverse = (y :: a'').reverse ++ [x] := by
            simp
          rw [this] at hlast
          rwa [headWs_append_last _ _ (by simp)] at hlast
        rw [ih (wsnB_tail _ _ ha) hlast']
        simp
    · rw [List.cons_append, collapseWs_cons_nonws x _ (by simpa using hws)]
      cases a' with
      | nil => simp
      | cons y a'' =>
        have hlast' : headWs (y :: a'').reverse = false := by
          have : (x :: y :: a'').reverse = (y :: a'').reverse ++ [x] := by
            simp
          rw [this] at hlast
          rwa [headWs_append_last _ _ (by simp)] at hlast
        rw [ih (wsnB_tail _ _ ha) hlast']
        simp

theorem beginsWith_head_ne (p s : List Char) (hp : Char) (hs : Char)
    (h1 : p.head? = some hp) (h2 : s.head? = some hs) (hne : hp ≠ hs) :
    beginsWith p s = false := by
  cases p with
  | nil => simp at h1
  | cons x xs =>
    cases s with
    | nil => rfl
    | cons c cs =>
      simp only [List.head?_cons, Option.some.injEq] at h1 h2
      subst h1; subst h2
      simp [beginsWith, hne]

theorem head_ne_nil (p : List Char) (c : Char) (h : p.head? = some c) : p ≠ [] := by
  cases p with
  | nil => simp at h
  | cons x xs => simp

theorem quote_ne_space (q : Char) (hq : isQuoteChar q = true) : ' ' ≠ q := by
  rcases (isQuoteChar_iff q).mp hq with h | h <;> subst h <;> decide

/-- A spaced connective pattern occurs nowhere in a normalized
`"All Metadata"` clause whose phrase avoids it: the quotes and the
colon act as barriers, the field name has no spaced letter run
matching a connective, and the optional single spaces around the colon
are too short. -/
theorem clause_no_contains (p : List Char) (q1 q2 : Char) (am w1 w2 X : List Char)
    (hq1 : isQuoteChar q1 = true) (hq2 : isQuoteChar q2 = true)
    (ham : am.map charLower = allMetaLit)
    (hw1 : w1 = [] ∨ w1 = [' ']) (hw2 : w2 = [] ∨ w2 = [' '])
    (hXp : containsSub p X = false)
    (hhead : p.head? = some ' ')
    (hnq : ∀ c ∈ p, isQuoteChar c = false)
    (hncolon : ':' ∉ p)
    (hsp : containsSub p [' '] = false)
    (hlit : containsSub (p.map charLower) allMetaLit = false) :
    containsSub p
      (q1 :: (am ++ (q1 :: (w1 ++ (':' :: (w2 ++ (q2 :: (X ++ [q2])))))))) = false := by
  have hq1p : q1 ∉ p := fun hm => by
    have := hnq q1 hm; rw [hq1] at this; cases this
  have hq2p : q2 ∉ p := fun hm => by
    have := hnq q2 hm; rw [hq2] at this; cases this
  have hpne : p ≠ [] := head_ne_nil p ' ' hhead
  have hbq1 : ∀ t, beginsWith p (q1 :: t) = false := fun t =>
    beginsWith_head_ne p _ ' ' q1 hhead rfl (quote_ne_space q1 hq1)
  have hbq2 : ∀ t, beginsWith p (q2 :: t) = false := fun t =>
    beginsWith_head_ne p _ ' ' q2 hhead rfl (quote_ne_space q2 hq2)
  have hbcolon : ∀ t, beginsWith p (':' :: t) = false := fun t =>
    beginsWith_head_ne p _ ' ' ':' hhead rfl (by decide)
  have hw : ∀ w, w = [] ∨ w = [' '] → containsSub p w = false := by
    rintro w (rfl | rfl)
    · exact containsSub_nil p hpne
    · exact hsp
  rw [Bool.eq_false_iff]
  intro h0
  rw [containsSub_cons, hbq1, Bool.false_or] at h0
  rcases containsSub_append_or_of_barrier p am _
      (fun c hc hm => by
        simp only [List.head?_cons, Option.some.injEq] at hc
        exact hq1p (hc ▸ hm)) h0 with h1 | h1
  · have := containsSub_map charLower _ _ h1
    rw [ham, hlit] at this
    cases this
  · rw [containsSub_cons, hbq1, Bool.false_or] at h1
    rcases containsSub_append_or_of_barrier p w1 _
        (fun c hc hm => by
          simp only [List.head?_cons, Option.some.injEq] at hc
          exact hncolon (hc ▸ hm)) h1 with h2 | h2
    · rw [hw w1 hw1] at h2; cases h2
    · rw [containsSub_cons, hbcolon, Bool.false_or] at h2
      rcases containsSub_append_or_of_barrier p w2 _
          (fun c hc hm => by
            simp only [List.head?_cons, Option.some.injEq] at hc
            exact hq2p (hc ▸ hm)) h2 with h3 | h3
      · rw [hw w2 hw2] at h3; cases h3
      · rw [containsSub_cons, hbq2, Bool.false_or] at h3
        rcases containsSub_append_or_of_barrier p X [q2]
            (fun c hc hm => by
              simp only [List.head?_cons, Option.some.injEq] at hc
              exact hq2p (hc ▸ hm)) h3 with h4 | h4
        · rw [hXp] at h4; cases h4
        · rw [show ([q2] : List Char) = q2 :: [] from rfl, containsSub_cons, hbq2,
            Bool.false_or, containsSub_nil p hpne] at h4
          cases h4

theorem tryMatch1_clause (q1 q2 : Char) (am w1 w2 X : List Char)
    (hq1 : isQuoteChar q1 = true) (hq2 : isQuoteChar q2 = true)
    (ham : am.map charLower = allMetaLit)
    (hw1 : w1.all isWsChar = true) (hw2 : w2.all isWsChar = true)
    (hX : X ≠ []) (hXq : ∀ c ∈ X, c ≠ q2) (hXnl : ∀ c ∈ X, c ≠ '\n') :
    tryMatch1 (q1 :: (am ++ (q1 :: (w1 ++ (':' :: (w2 ++ (q2 :: (X ++ [q2]))))))))
      = some (X, []) := by
  have hm := matchLit_append_of_mapLower am allMetaLit
    (q1 :: (w1 ++ (':' :: (w2 ++ (q2 :: (X ++ [q2])))))) ham
  have hd1 : (w1 ++ (':' :: (w2 ++ (q2 :: (X ++ [q2]))))).dropWhile isWsChar
      = ':' :: (w2 ++ (q2 :: (X ++ [q2]))) := by
    rw [dropWhile_append_all _ _ hw1, dropWhile_headNot _ (by simp [headWs]; decide)]
  have hd2 : (w2 ++ (q2 :: (X ++ [q2]))).dropWhile isWsChar = q2 :: (X ++ [q2]) := by
    rw [dropWhile_append_all _ _ hw2]
    refine dropWhile_headNot _ ?_
    simp only [headWs]
    rcases (isQuoteChar_iff q2).mp hq2 with h | h <;> subst h <;> decide
  have hg : grabPhrase q2 (X ++ [q2]) = some (X, []) := by
    rw [show X ++ [q2] = X ++ q2 :: [] from rfl]
    exact grabPhrase_exact q2 X [] hX hXq hXnl
  simp only [tryMatch1, hq1, if_true, hm, hd1, hd2, if_pos rfl, hq2, hg]

theorem subMeta1_clause (q1 q2 : Char) (am w1 w2 X : List Char)
    (hq1 : isQuoteChar q1 = true) (hq2 : isQuoteChar q2 = true)
    (ham : am.map charLower = allMetaLit)
    (hw1 : w1.all isWsChar = true) (hw2 : w2.all isWsChar = true)
    (hX : X ≠ []) (hXq : ∀ c ∈ X, c ≠ q2) (hXnl : ∀ c ∈ X, c ≠ '\n') :
    subMeta1 (q1 :: (am ++ (q1 :: (w1 ++ (':' :: (w2 ++ (q2 :: (X ++ [q2]))))))))
      = "all:\"".data ++ (X ++ ['"']) := by
  rw [subMeta1]
  rw [tryMatch1_clause q1 q2 am w1 w2 X hq1 hq2 ham hw1 hw2 hX hXq hXnl]
  simp [subMeta1_nil]

theorem no_meta_in_result (X : List Char)
    (hX : containsSub allMetaLit (X.map charLower) = false) :
    containsSub allMetaLit (("all:\"".data ++ (X ++ ['"'])).map charLower) = false := by
  have e : ("all:\"".data ++ (X ++ ['"'])).map charLower
      = 'a' :: 'l' :: 'l' :: ':' :: '"' :: (X.map charLower ++ ['"']) := by
    simp only [List.map_append, List.map_cons, List.map_nil]
    rfl
  rw [e, Bool.eq_false_iff]
  intro h0
  have hb0 : ∀ (c : Char) (t : List Char), c ≠ 'a' →
      beginsWith allMetaLit (c :: t) = false := fun c t hc =>
    beginsWith_head_ne _ _ 'a' c rfl rfl (fun h => hc h.symm)
  have hb1 : ∀ t : List Char,
      beginsWith allMetaLit ('a' :: 'l' :: 'l' :: ':' :: t) = false := by
    intro t
    show beginsWith ('a' :: 'l' :: 'l' :: ' ' :: "metadata".data)
      ('a' :: 'l' :: 'l' :: ':' :: t) = false
    simp [beginsWith]
  rw [containsSub_cons, hb1, Bool.false_or] at h0
  rw [containsSub_cons, hb0 'l' _ (by decide), Bool.false_or] at h0
  rw [containsSub_cons, hb0 'l' _ (by decide), Bool.false_or] at h0
  rw [containsSub_cons, hb0 ':' _ (by decide), Bool.false_or] at h0
  rw [containsSub_cons, hb0 '"' _ (by decide), Bool.false_or] at h0
  rcases containsSub_append_or_of_barrier allMetaLit (X.map charLower) ['"']
      (fun c hc hm => by
        simp only [List.head?_cons, Option.some.injEq] at hc
        subst hc
        revert hm
        decide) h0 with h1 | h1
  · rw [hX] at h1; cases h1
  · revert h1; decide

theorem quote_not_ws (q : Char) (hq : isQuoteChar q = true) : isWsChar q = false := by
  rcases (isQuoteChar_iff q).mp hq with h | h <;> subst h <;> decide

theorem opt_space_all_ws (w : List Char) (hw : w = [] ∨ w = [' ']) :
    w.all isWsChar = true := by
  rcases hw with rfl | rfl <;> decide

theorem opsUpper_clause (q1 q2 : Char) (am w1 w2 X : List Char)
    (hq1 : isQuoteChar q1 = true) (hq2 : isQuoteChar q2 = true)
    (ham : am.map charLower = allMetaLit)
    (hw1 : w1 = [] ∨ w1 = [' ']) (hw2 : w2 = [] ∨ w2 = [' '])
    (hXa : containsSub " and ".data X = false)
    (hXA : containsSub " And ".data X = false)
    (hXo : containsSub " or ".data X = false)
    (hXO : containsSub " Or ".data X = false)
    (hXn : containsSub " andnot ".data X = false)
    (hXN : containsSub " Andnot ".data X = false) :
    opsUpper (q1 :: (am ++ (q1 :: (w1 ++ (':' :: (w2 ++ (q2 :: (X ++ [q2]))))))))
      = q1 :: (am ++ (q1 :: (w1 ++ (':' :: (w2 ++ (q2 :: (X ++ [q2]))))))) := by
  have h1 := replaceSub_id_of_not_contains " and ".data " AND ".data _
    (clause_no_contains " and ".data q1 q2 am w1 w2 X hq1 hq2 ham hw1 hw2 hXa
      (by decide) (by decide) (by decide) (by decide) (by decide))
  have h2 := replaceSub_id_of_not_contains " And ".data " AND ".data _
    (clause_no_contains " And ".data q1 q2 am w1 w2 X hq1 hq2 ham hw1 hw2 hXA
      (by decide) (by decide) (by decide) (by decide) (by decide))
  have h3 := replaceSub_id_of_not_contains " or ".data " OR ".data _
    (clause_no_contains " or ".data q1 q2 am w1 w2 X hq1 hq2 ham hw1 hw2 hXo
      (by decide) (by decide) (by decide) (by decide) (by decide))
  have h4 := replaceSub_id_of_not_contains " Or ".data " OR ".data _
    (clause_no_contains " Or ".data q1 q2 am w1 w2 X hq1 hq2 ham hw1 hw2 hXO
      (by decide) (by decide) (by decide) (by decide) (by decide))
  have h5 := replaceSub_id_of_not_contains " andnot ".data " ANDNOT ".data _
    (clause_no_contains " andnot ".data q1 q2 am w1 w2 X hq1 hq2 ham hw1 hw2 hXn
      (by decide) (by decide) (by decide) (by decide) (by decide))
  have h6 := replaceSub_id_of_not_contains " Andnot ".data " ANDNOT ".data _
    (clause_no_contains " Andnot ".data q1 q2 am w1 w2 X hq1 hq2 ham hw1 hw2 hXN
      (by decide) (by decide) (by decide) (by decide) (by decide))
  simp only [opsUpper, opsSrc, List.foldl_cons, List.foldl_nil]
  rw [h1, h2, replaceSub_self " AND ".data, h3, h4, replaceSub_self " OR ".data,
    h5, h6, replaceSub_self " ANDNOT ".data]

theorem wsnB_clause_value (q2 : Char) (X : List Char) (hq2 : isQuoteChar q2 = true)
    (hXwsn : wsnB X = true) : wsnB (q2 :: (X ++ [q2])) = true := by
  have hq2ws : isWsChar q2 = false := quote_not_ws q2 hq2
  rw [show q2 :: (X ++ [q2]) = [q2] ++ (X ++ [q2]) from rfl, wsnB_append]
  refine ⟨wsnB_singleton_nonws _ hq2ws, ?_, ?_⟩
  · rw [wsnB_append]
    refine ⟨hXwsn, wsnB_singleton_nonws _ hq2ws, ?_⟩
    intro x y hx hy
    simp only [List.head?_cons, Option.some.injEq] at hy
    subst hy
    simp [hq2ws]
  · intro x y hx hy
    simp only [List.getLast?_singleton, Option.some.injEq] at hx
    subst hx
    simp [hq2ws]

theorem result_noOpenWs (X : List Char) (hX : noOpenWsB X = true) :
    noOpenWsB ("all:\"".data ++ (X ++ ['"'])) = true := by
  unfold noOpenWsB at *
  rw [noPairB_append]
  refine ⟨by decide, ?_, ?_⟩
  · rw [noPairB_append]
    refine ⟨hX, by decide, ?_⟩
    intro x y hx hy
    simp only [List.head?_cons, Option.some.injEq] at hy
    subst hy
    simp [isWsChar]
    intro hmem
    first
    | decide
    | exact absurd hmem (by decide)
  · intro x y hx hy
    rw [show ("all:\"".data).getLast? = some '"' from rfl] at hx
    simp only [Option.some.injEq] at hx
    subst hx
    simp

theorem result_noCloseWs (X : List Char) (hX : noCloseWsB X = true) :
    noCloseWsB ("all:\"".data ++ (X ++ ['"'])) = true := by
  unfold noCloseWsB at *
  rw [noPairB_append]
  refine ⟨by decide, ?_, ?_⟩
  · rw [noPairB_append]
    refine ⟨hX, by decide, ?_⟩
    intro x y hx hy
    simp only [List.head?_cons, Option.some.injEq] at hy
    subst hy
    simp
  · intro x y hx hy
    rw [show ("all:\"".data).getLast? = some '"' from rfl] at hx
    simp only [Option.some.injEq] at hx
    subst hx
    simp [isWsChar]
    intro hmem
    first
    | decide
    | exact absurd hmem (by decide)

theorem result_wsn (X : List Char) (hX : wsnB X = true) :
    wsnB ("all:\"".data ++ (X ++ ['"'])) = true := by
  rw [wsnB_append]
  refine ⟨by decide, ?_, ?_⟩
  · rw [wsnB_append]
    refine ⟨hX, by decide, ?_⟩
    intro x y hx hy
    simp only [List.head?_cons, Option.some.injEq] at hy
    subst hy
    simp [isWsChar]
    intro hmem
    first
    | decide
    | exact absurd hmem (by decide)
  · intro x y hx hy
    rw [show ("all:\"".data).getLast? = some '"' from rfl] at hx
    simp only [Option.some.injEq] at hx
    subst hx
    simp [isWsChar]
    intro hmem
    first
    | decide
    | exact absurd hmem (by decide)

theorem normalize_tail (q1 q2 : Char) (am w1 w2 X : List Char)
    (hq1 : isQuoteChar q1 = true) (hq2 : isQuoteChar q2 = true)
    (ham : am.map charLower = allMetaLit)
    (hw1 : w1 = [] ∨ w1 = [' ']) (hw2 : w2 = [] ∨ w2 = [' '])
    (hX : X ≠ []) (hXq : ∀ c ∈ X, c ≠ q2) (hXwsn : wsnB X = true)
    (hXa : containsSub " and ".data X = false)
    (hXA : containsSub " And ".data X = false)
    (hXo : containsSub " or ".data X = false)
    (hXO : containsSub " Or ".data X = false)
    (hXn : containsSub " andnot ".data X = false)
    (hXN : containsSub " Andnot ".data X = false)
    (hXopen : noOpenWsB X = true) (hXclose : noCloseWsB X = true)
    (hXmeta : containsSub allMetaLit (X.map charLower) = false) :
    pyStrip (collapseMulti (parenClose (parenOpen (subMeta2 (subMeta1 (opsUpper
      (q1 :: (am ++ (q1 :: (w1 ++ (':' :: (w2 ++ (q2 :: (X ++ [q2]))))))))))))))
      = "all:\"".data ++ (X ++ ['"']) := by
  have hXnl : ∀ c ∈ X, c ≠ '\n' := fun c hc => wsnB_no_newline X hXwsn c hc
  rw [opsUpper_clause q1 q2 am w1 w2 X hq1 hq2 ham hw1 hw2 hXa hXA hXo hXO hXn hXN]
  rw [subMeta1_clause q1 q2 am w1 w2 X hq1 hq2 ham
    (opt_space_all_ws w1 hw1) (opt_space_all_ws w2 hw2) hX hXq hXnl]
  rw [subMeta2_id_of_not_contains _ (no_meta_in_result X hXmeta)]
  rw [parenOpen_id _ (result_noOpenWs X hXopen)]
  rw [parenClose_id _ (result_noCloseWs X hXclose)]
  rw [collapseMulti_id _ (result_wsn X hXwsn)]
  refine pyStrip_id _ (by rfl) ?_
  have e : ("all:\"".data ++ (X ++ ['"'])).reverse
      = '"' :: (X.reverse ++ ("all:\"".data).reverse) := by
    simp
  rw [e]
  rfl

theorem normalizeList_clause (q1 q2 : Char) (am w1 w2 X : List Char)
    (hq1 : isQuoteChar q1 = true) (hq2 : isQuoteChar q2 = true)
    (ham : am.map charLower = allMetaLit)
    (hw1 : w1.all isWsChar = true) (hw2 : w2.all isWsChar = true)
    (hX : X ≠ []) (hXq : ∀ c ∈ X, c ≠ q2) (hXwsn : wsnB X = true)
    (hXcur : ∀ c ∈ X, isCurly c = false)
    (hXa : containsSub " and ".data X = false)
    (hXA : containsSub " And ".data X = false)
    (hXo : containsSub " or ".data X = false)
    (hXO : containsSub " Or ".data X = false)
    (hXn : containsSub " andnot ".data X = false)
    (hXN : containsSub " Andnot ".data X = false)
    (hXopen : noOpenWsB X = true) (hXclose : noCloseWsB X = true)
    (hXmeta : containsSub allMetaLit (X.map charLower) = false) :
    normalizeList (q1 :: (am ++ (q1 :: (w1 ++ (':' :: (w2 ++ (q2 :: (X ++ [q2]))))))))
      = "all:\"".data ++ (X ++ ['"']) := by
  have hq1ws := quote_not_ws q1 hq1
  have hq2ws := quote_not_ws q2 hq2
  have hquote_id : ∀ d, isQuoteChar d = true → normQuote d = d := by
    intro d hd
    rcases (isQuoteChar_iff d).mp hd with rfl | rfl <;> decide
  -- Step 1: stripping is the identity (quote characters at both ends).
  have hstrip : pyStrip
      (q1 :: (am ++ (q1 :: (w1 ++ (':' :: (w2 ++ (q2 :: (X ++ [q2])))))))) =
      q1 :: (am ++ (q1 :: (w1 ++ (':' :: (w2 ++ (q2 :: (X ++ [q2]))))))) := by
    refine pyStrip_id _ (by simp [headWs, hq1ws]) ?_
    have e : q1 :: (am ++ (q1 :: (w1 ++ (':' :: (w2 ++ (q2 :: (X ++ [q2]))))))) =
        (q1 :: (am ++ (q1 :: (w1 ++ (':' :: (w2 ++ (q2 :: X))))))) ++ [q2] := by
      simp
    rw [e, List.reverse_append]
    simp [headWs, hq2ws]
  -- Step 2: no typographic quotes anywhere, so the quote map is the identity.
  have hmap : (q1 :: (am ++ (q1 :: (w1 ++ (':' :: (w2 ++ (q2 :: (X ++ [q2])))))))).map
      normQuote = q1 :: (am ++ (q1 :: (w1 ++ (':' :: (w2 ++ (q2 :: (X ++ [q2]))))))) := by
    refine map_normQuote_id _ ?_
    intro c hc
    simp only [List.mem_cons, List.mem_append, List.mem_singleton] at hc
    rcases hc with rfl | hc | rfl | hc | rfl | hc | rfl | hc | (rfl | hc)
    · exact hquote_id _ hq1
    · exact normQuote_id_of_not_curly _ (am_no_curly am ham c hc)
    · exact hquote_id _ hq1
    · exact normQuote_id_of_not_curly _
        (ws_not_curly c (List.all_eq_true.mp hw1 c hc))
    · decide
    · exact normQuote_id_of_not_curly _
        (ws_not_curly c (List.all_eq_true.mp hw2 c hc))
    · exact hquote_id _ hq2
    · exact normQuote_id_of_not_curly _ (hXcur c hc)
    · exact hquote_id _ hq2
    · exact absurd hc (List.not_mem_nil c)
  -- Step 3: whitespace collapsing turns the optional whitespace runs
  -- around the colon into at most one space each.
  have hwsnB1 : wsnB (q1 :: (am ++ [q1])) = true := by
    rw [show q1 :: (am ++ [q1]) = [q1] ++ (am ++ [q1]) from rfl, wsnB_append]
    refine ⟨wsnB_singleton_nonws _ hq1ws, ?_, ?_⟩
    · rw [wsnB_append]
      refine ⟨am_wsn am ham, wsnB_singleton_nonws _ hq1ws, ?_⟩
      intro x y hx hy
      simp only [List.head?_cons, Option.some.injEq] at hy
      subst hy
      simp [hq1ws]
    · intro x y hx hy
      simp only [List.getLast?_singleton, Option.some.injEq] at hx
      subst hx
      simp [hq1ws]
  have hlastB1 : headWs (q1 :: (am ++ [q1])).reverse = false := by
    have e : q1 :: (am ++ [q1]) = (q1 :: am) ++ [q1] := by simp
    rw [e, List.reverse_append]
    simp [headWs, hq1ws]
  have hB2 : collapseWs (q2 :: (X ++ [q2])) = q2 :: (X ++ [q2]) :=
    collapseWs_id _ (wsnB_clause_value q2 X hq2 hXwsn)
  have hcoll : ∃ w1' w2', (w1' = [] ∨ w1' = [' ']) ∧ (w2' = [] ∨ w2' = [' ']) ∧
      collapseWs (q1 :: (am ++ (q1 :: (w1 ++ (':' :: (w2 ++ (q2 :: (X ++ [q2])))))))) =
      q1 :: (am ++ (q1 :: (w1' ++ (':' :: (w2' ++ (q2 :: (X ++ [q2]))))))) := by
    have eB : q1 :: (am ++ (q1 :: (w1 ++ (':' :: (w2 ++ (q2 :: (X ++ [q2]))))))) =
        (q1 :: (am ++ [q1])) ++ (w1 ++ (':' :: (w2 ++ (q2 :: (X ++ [q2]))))) := by
      simp
    rw [eB, collapseWs_append_lastNot _ _ hwsnB1 hlastB1]
    have hT2 : ∃ w2', (w2' = [] ∨ w2' = [' ']) ∧
        collapseWs (w2 ++ (q2 :: (X ++ [q2]))) = w2' ++ (q2 :: (X ++ [q2])) := by
      cases w2 with
      | nil =>
        exact ⟨[], Or.inl rfl, by simpa using hB2⟩
      | cons c w2t =>
        refine ⟨[' '], Or.inr rfl, ?_⟩
        rw [collapseWs_wsrun (c :: w2t) _ (by simp) hw2 (by simp [headWs, hq2ws]), hB2]
        rfl
    rcases hT2 with ⟨w2', hw2', hT2⟩
    cases w1 with
    | nil =>
      refine ⟨[], w2', Or.inl rfl, hw2', ?_⟩
      simp only [List.nil_append]
      rw [collapseWs_cons_nonws ':' _ (by decide), hT2]
      simp
    | cons c w1t =>
      refine ⟨[' '], w2', Or.inr rfl, hw2', ?_⟩
      rw [collapseWs_wsrun (c :: w1t) _ (by simp) hw1 (by simp [headWs]; decide),
        collapseWs_cons_nonws ':' _ (by decide), hT2]
      simp
  rcases hcoll with ⟨w1', w2', hw1', hw2', hcoll⟩
  show pyStrip (collapseMulti (parenClose (parenOpen (subMeta2 (subMeta1 (opsUpper
    (collapseWs ((pyStrip _).map normQuote)))))))) = _
  rw [hstrip, hmap, hcoll]
  exact normalize_tail q1 q2 am w1' w2' X hq1 hq2 ham hw1' hw2' hX hXq hXwsn
    hXa hXA hXo hXO hXn hXN hXopen hXclose hXmeta

set_option maxHeartbeats 2000000 in
unseal collapseWs collapseMulti parenOpen parenClose replaceSub subMeta1 subMeta2 in
/-- C1 (amended): a clause made of a quote character, `All Metadata` in any
letter case, the same quote, optional whitespace, a colon, optional
whitespace, and a value-quoted phrase `X` translates to exactly
`all:"X"` with `X` unchanged, provided `X` is nonempty and is itself left
untouched by the normalization passes: it contains no newline and no
occurrence of the value quote character, no typographic quote, its
whitespace consists of single plain spaces, it contains no spaced
connective variant ` and `/` And `/` or `/` Or `/` andnot `/` Andnot `,
no whitespace adjacent to a parenthesis, and no occurrence of
`all metadata` in any letter case; in particular the spec's example
`“All Metadata”: ‘XAI’` translates to `all:"XAI"`.  (The unamended claim
is refuted by `C1_counterexample`: a connective inside the phrase is
uppercased.) -/
theorem C1_clause_translation :
    (∀ (q1 q2 : Char) (am w1 w2 X : List Char),
      isQuoteChar q1 = true → isQuoteChar q2 = true →
      am.map charLower = allMetaLit →
      w1.all isWsChar = true → w2.all isWsChar = true →
      X ≠ [] → (∀ c ∈ X, c ≠ q2) → wsnB X = true →
      (∀ c ∈ X, isCurly c = false) →
      containsSub " and ".data X = false → containsSub " And ".data X = false →
      containsSub " or ".data X = false → containsSub " Or ".data X = false →
      containsSub " andnot ".data X = false → containsSub " Andnot ".data X = false →
      noOpenWsB X = true → noCloseWsB X = true →
      containsSub allMetaLit (X.map charLower) = false →
      normalize_command_search_to_arxiv
        (String.mk (q1 :: (am ++ (q1 :: (w1 ++ (':' :: (w2 ++ (q2 :: (X ++ [q2])))))))))
        = String.mk ("all:\"".data ++ (X ++ ['"']))) ∧
    normalize_command_search_to_arxiv "“All Metadata”: ‘XAI’" = "all:\"XAI\"" :=
  ⟨fun q1 q2 am w1 w2 X hq1 hq2 ham hw1 hw2 hX hXq hXwsn hXcur hXa hXA hXo hXO
      hXn hXN hXopen hXclose hXmeta =>
    congrArg String.mk (normalizeList_clause q1 q2 am w1 w2 X hq1 hq2 ham hw1 hw2
      hX hXq hXwsn hXcur hXa hXA hXo hXO hXn hXN hXopen hXclose hXmeta),
  rfl⟩

set_option maxHeartbeats 2000000 in
unseal collapseWs collapseMulti parenOpen parenClose replaceSub subMeta1 subMeta2 in
/-- C1 counterexample: the clause `"All Metadata":"a and b"` translates to
`all:"a AND b"`, not `all:"a and b"` — the phrase is *not* left unchanged,
because the connective-uppercasing substitution also fires inside quoted
phrases. -/
theorem C1_counterexample :
    normalize_command_search_to_arxiv "\"All Metadata\":\"a and b\"" = "all:\"a AND b\""
    ∧ normalize_command_search_to_arxiv "\"All Metadata\":\"a and b\""
      ≠ "all:\"a and b\"" := by
  refine ⟨rfl, ?_⟩
  decide

/-- Witness for `C1_clause_translation`: the concrete clause
`"All Metadata": 'XAI'` translates to `all:"XAI"`. -/
theorem C1_clause_translation_witness :
    normalize_command_search_to_arxiv
      (String.mk ('"' :: ("All Metadata".data ++ ('"' ::
        ([] ++ (':' :: ([' '] ++ (squote :: ("XAI".data ++ [squote])))))))))
      = String.mk ("all:\"".data ++ ("XAI".data ++ ['"'])) :=
  C1_clause_translation.1 '"' squote "All Metadata".data [] [' '] "XAI".data
    (by decide) (by decide) (by decide) (by decide) (by decide) (by decide)
    (by decide) (by decide) (by decide) (by decide) (by decide) (by decide)
    (by decide) (by decide) (by decide) (by decide) (by decide) (by decide)

/-! ### Support lemmas for the connective-substitution claim -/

theorem noPairB_of_mem (bad : Char → Char → Bool) (s : List Char)
    (h : ∀ x y, x ∈ s → y ∈ s → bad x y = false) : noPairB bad s = true := by
  induction s with
  | nil => rfl
  | cons a rest ih =>
    cases rest with
    | nil => rfl
    | cons b bs =>
      show (!bad a b && noPairB bad (b :: bs)) = true
      rw [h a b (by simp) (by simp),
        ih fun x y hx hy => h x y (by simp [hx]) (by simp [hy])]
      rfl

theorem wsn_of_wsFree (s : List Char) (h : ∀ c ∈ s, isWsChar c = false) :
    wsnB s = true := by
  rw [wsnB_split]
  refine ⟨(allSpaceWs_iff s).mpr fun c hc hw => ?_,
    noPairB_of_mem _ _ fun x y hx hy => by simp [h x hx]⟩
  rw [h c hc] at hw
  cases hw

theorem getLast?_mem_self (l : List Char) (a : Char) (h : l.getLast? = some a) :
    a ∈ l := by
  induction l with
  | nil => simp at h
  | cons x xs ih =>
    cases xs with
    | nil =>
      simp only [List.getLast?_singleton, Option.some.injEq] at h
      simp [h]
    | cons y ys =>
      have e : (x :: y :: ys).getLast? = (y :: ys).getLast? := by
        simp [List.getLast?]
      rw [e] at h
      simp [ih h]

theorem head?_mem_self (l : List Char) (a : Char) (h : l.head? = some a) : a ∈ l := by
  cases l with
  | nil => simp at h
  | cons x xs =>
    simp only [List.head?_cons, Option.some.injEq] at h
    simp [h]

theorem getLast?_ne_none (l : List Char) (hl : l ≠ []) : l.getLast? ≠ none := by
  induction l with
  | nil => exact absurd rfl hl
  | cons x xs ih =>
    cases xs with
    | nil => simp
    | cons y ys =>
      rw [show (x :: y :: ys).getLast? = (y :: ys).getLast? by simp [List.getLast?]]
      exact ih (by simp)

theorem getLast?_append_right (l v : List Char) (hv : v ≠ []) :
    (l ++ v).getLast? = v.getLast? := by
  rw [List.getLast?_append]
  cases hl : v.getLast? with
  | none => exact absurd hl (getLast?_ne_none v hv)
  | some x => rfl

theorem ops_no_contains_spaceFree (p mid a b : List Char)
    (hhead : p.head? = some ' ') (hlast : p.getLast? = some ' ')
    (ha : ∀ c ∈ a, isWsChar c = false) (hb : ∀ c ∈ b, isWsChar c = false)
    (hmid : containsSub p mid = false) :
    containsSub p (a ++ (mid ++ b)) = false := by
  have hspmem : ' ' ∈ p := head?_mem_self p ' ' hhead
  rw [Bool.eq_false_iff]
  intro h0
  rcases containsSub_append_or p a _ h0 with h1 | h1 | ⟨p1, p2, hp, hp1, hp2, hsuf, hpre⟩
  · have := containsSub_mem p a h1 ' ' hspmem
    exact absurd (ha ' ' this) (by decide)
  · rcases containsSub_append_or p mid b h1 with h2 | h2 |
        ⟨p1, p2, hp, hp1, hp2, hsuf, hpre⟩
    · rw [hmid] at h2; cases h2
    · have := containsSub_mem p b h2 ' ' hspmem
      exact absurd (hb ' ' this) (by decide)
    · -- the suffix part p2 ends with p's trailing space, inside b
      have hlast2 : p2.getLast? = some ' ' := by
        rw [hp, getLast?_append_right p1 p2 hp2] at hlast
        exact hlast
      have : ' ' ∈ b := hpre.subset (getLast?_mem_self p2 ' ' hlast2)
      exact absurd (hb ' ' this) (by decide)
  · -- the prefix part p1 starts with p's leading space, inside a
    have hhead1 : p1.head? = some ' ' := by
      cases p1 with
      | nil => exact absurd rfl hp1
      | cons x xs =>
        rw [hp] at hhead
        simpa using hhead
    have : ' ' ∈ a := hsuf.subset (head?_mem_self p1 ' ' hhead1)
    exact absurd (ha ' ' this) (by decide)

theorem replaceSub_none_of_wsFree (p r b : List Char) (hsp : ' ' ∈ p)
    (hb : ∀ c ∈ b, isWsChar c = false) : replaceSub p r b = b :=
  replaceSub_id_of_not_contains p r b (by
    rw [Bool.eq_false_iff]
    intro h
    have := containsSub_mem p b h ' ' hsp
    exact absurd (hb ' ' this) (by decide))

theorem replaceSub_single_occ (p r a b : List Char) (p' : List Char)
    (hp : p = ' ' :: p')
    (ha : ∀ c ∈ a, isWsChar c = false) (hb : ∀ c ∈ b, isWsChar c = false) :
    replaceSub p r (a ++ (p ++ b)) = a ++ (r ++ b) := by
  induction a with
  | nil =>
    rw [List.nil_append, hp, List.cons_append, replaceSub,
      dif_pos ⟨by simp, (beginsWith_iff _ _).mpr ⟨b, by simp [hp]⟩⟩]
    rw [show (' ' :: (p' ++ b)).drop (' ' :: p').length = b by
      rw [show ' ' :: (p' ++ b) = (' ' :: p') ++ b by simp, List.drop_left]]
    rw [replaceSub_none_of_wsFree _ r b (by simp [hp]) hb]
    simp
  | cons x a' ih =>
    have hxws : isWsChar x = false := ha x (by simp)
    have hxsp : ¬(' ' = x) := fun h => by rw [← h] at hxws; cases hxws
    rw [List.cons_append, replaceSub, dif_neg (by
      rintro ⟨-, hbeg⟩
      rw [hp] at hbeg
      simp only [beginsWith, Bool.and_eq_true, decide_eq_true_eq] at hbeg
      exact hxsp hbeg.1)]
    rw [ih fun c hc => ha c (by simp [hc])]
    simp

theorem matchLit_suffix (lit s r : List Char) (h : matchLit lit s = some r) :
    r <:+ s := by
  induction lit generalizing s with
  | nil =>
    simp only [matchLit, Option.some.injEq] at h
    exact h ▸ List.suffix_refl r
  | cons p ps ih =>
    cases s with
    | nil => simp [matchLit] at h
    | cons c cs =>
      simp only [matchLit] at h
      by_cases hc : charLower c = p
      · simp only [hc, if_true] at h
        exact (ih cs h).trans (List.suffix_cons c cs)
      · simp [hc] at h

theorem tryMatch1_none_of_noQuote (s : List Char)
    (h : ∀ c ∈ s, isQuoteChar c = false) : tryMatch1 s = none := by
  cases s with
  | nil => rfl
  | cons q1 rest =>
    simp [tryMatch1, h q1 (by simp)]

theorem tryMatch2_none_of_noQuote (s : List Char)
    (h : ∀ c ∈ s, isQuoteChar c = false) : tryMatch2 s = none := by
  simp only [tryMatch2]
  cases hm : matchLit allMetaLit s with
  | none => rfl
  | some rest =>
    have hsub : rest <:+ s := matchLit_suffix _ _ _ hm
    cases hd : rest.dropWhile isWsChar with
    | nil => simp [hd]
    | cons c2 rest2 =>
      simp only [hd]
      by_cases hc : c2 = ':'
      · simp only [hc, if_true]
        cases hd2 : rest2.dropWhile isWsChar with
        | nil => simp [hd2]
        | cons q rest3 =>
          simp only [hd2]
          have hq : q ∈ s := by
            have h1 : q ∈ rest2.dropWhile isWsChar := by rw [hd2]; simp
            have h2 : q ∈ rest2 := (List.dropWhile_sublist _).subset h1
            have h3 : q ∈ rest.dropWhile isWsChar := by rw [hd]; simp [h2]
            have h4 : q ∈ rest := (List.dropWhile_sublist _).subset h3
            exact hsub.subset h4
          simp [h q hq]
      · simp [hc]

theorem subMeta1_id_of_noQuote (s : List Char)
    (h : ∀ c ∈ s, isQuoteChar c = false) : subMeta1 s = s := by
  induction s with
  | nil => exact subMeta1_nil
  | cons a rest ih =>
    rw [subMeta1, tryMatch1_none_of_noQuote _ h, ih fun c hc => h c (by simp [hc])]

theorem subMeta2_id_of_noQuote (s : List Char)
    (h : ∀ c ∈ s, isQuoteChar c = false) : subMeta2 s = s := by
  induction s with
  | nil => exact subMeta2_nil
  | cons a rest ih =>
    rw [subMeta2, tryMatch2_none_of_noQuote _ h, ih fun c hc => h c (by simp [hc])]

theorem opsUpper_single (pr : List Char × List Char) (hpr : pr ∈ opsSrc)
    (a b : List Char)
    (ha : ∀ c ∈ a, isWsChar c = false) (hb : ∀ c ∈ b, isWsChar c = false) :
    opsUpper (a ++ (pr.1 ++ b)) = a ++ (pr.2 ++ b) := by
  have key : ∀ p r mid : List Char, p.head? = some ' ' → p.getLast? = some ' ' →
      containsSub p mid = false →
      replaceSub p r (a ++ (mid ++ b)) = a ++ (mid ++ b) := fun p r mid h1 h2 h3 =>
    replaceSub_id_of_not_contains _ _ _
      (ops_no_contains_spaceFree p mid a b h1 h2 ha hb h3)
  have key2 : ∀ r mid p' : List Char, mid = ' ' :: p' →
      replaceSub mid r (a ++ (mid ++ b)) = a ++ (r ++ b) := fun r mid p' hp =>
    replaceSub_single_occ mid r a b p' hp ha hb
  fin_cases hpr
  · simp only [opsUpper, opsSrc, List.foldl_cons, List.foldl_nil]
    rw [key2 " AND ".data " and ".data "and ".data (by decide),
      key " And ".data " AND ".data " AND ".data (by decide) (by decide) (by decide),
      replaceSub_self " AND ".data,
      key " or ".data " OR ".data " AND ".data (by decide) (by decide) (by decide),
      key " Or ".data " OR ".data " AND ".data (by decide) (by decide) (by decide),
      replaceSub_self " OR ".data,
      key " andnot ".data " ANDNOT ".data " AND ".data (by decide) (by decide) (by decide),
      key " Andnot ".data " ANDNOT ".data " AND ".data (by decide) (by decide) (by decide),
      replaceSub_self " ANDNOT ".data]
  · simp only [opsUpper, opsSrc, List.foldl_cons, List.foldl_nil]
    rw [key " and ".data " AND ".data " And ".data (by decide) (by decide) (by decide),
      key2 " AND ".data " And ".data "And ".data (by decide),
      replaceSub_self " AND ".data,
      key " or ".data " OR ".data " AND ".data (by decide) (by decide) (by decide),
      key " Or ".data " OR ".data " AND ".data (by decide) (by decide) (by decide),
      replaceSub_self " OR ".data,
      key " andnot ".data " ANDNOT ".data " AND ".data (by decide) (by decide) (by decide),
      key " Andnot ".data " ANDNOT ".data " AND ".data (by decide) (by decide) (by decide),
      replaceSub_self " ANDNOT ".data]
  · simp only [opsUpper, opsSrc, List.foldl_cons, List.foldl_nil]
    rw [key " and ".data " AND ".data " AND ".data (by decide) (by decide) (by decide),
      key " And ".data " AND ".data " AND ".data (by decide) (by decide) (by decide),
      replaceSub_self " AND ".data,
      key " or ".data " OR ".data " AND ".data (by decide) (by decide) (by decide),
      key " Or ".data " OR ".data " AND ".data (by decide) (by decide) (by decide),
      replaceSub_self " OR ".data,
      key " andnot ".data " ANDNOT ".data " AND ".data (by decide) (by decide) (by decide),
      key " Andnot ".data " ANDNOT ".data " AND ".data (by decide) (by decide) (by decide),
      replaceSub_self " ANDNOT ".data]
  · simp only [opsUpper, opsSrc, List.foldl_cons, List.foldl_nil]
    rw [key " and ".data " AND ".data " or ".data (by decide) (by decide) (by decide),
      key " And ".data " AND ".data " or ".data (by decide) (by decide) (by decide),
      replaceSub_self " AND ".data,
      key2 " OR ".data " or ".data "or ".data (by decide),
      key " Or ".data " OR ".data " OR ".data (by decide) (by decide) (by decide),
      replaceSub_self " OR ".data,
      key " andnot ".data " ANDNOT ".data " OR ".data (by decide) (by decide) (by decide),
      key " Andnot ".data " ANDNOT ".data " OR ".data (by decide) (by decide) (by decide),
      replaceSub_self " ANDNOT ".data]
  · simp only [opsUpper, opsSrc, List.foldl_cons, List.foldl_nil]
    rw [key " and ".data " AND ".data " Or ".data (by decide) (by decide) (by decide),
      key " And ".data " AND ".data " Or ".data (by decide) (by decide) (by decide),
      replaceSub_self " AND ".data,
      key " or ".data " OR ".data " Or ".data (by decide) (by decide) (by decide),
      key2 " OR ".data " Or ".data "Or ".data (by decide),
      replaceSub_self " OR ".data,
      key " andnot ".data " ANDNOT ".data " OR ".data (by decide) (by decide) (by decide),
      key " Andnot ".data " ANDNOT ".data " OR ".data (by decide) (by decide) (by decide),
      replaceSub_self " ANDNOT ".data]
  · simp only [opsUpper, opsSrc, List.foldl_cons, List.foldl_nil]
    rw [key " and ".data " AND ".data " OR ".data (by decide) (by decide) (by decide),
      key " And ".data " AND ".data " OR ".data (by decide) (by decide) (by decide),
      replaceSub_self " AND ".data,
      key " or ".data " OR ".data " OR ".data (by decide) (by decide) (by decide),
      key " Or ".data " OR ".data " OR ".data (by decide) (by decide) (by decide),
      replaceSub_self " OR ".data,
      key " andnot ".data " ANDNOT ".data " OR ".data (by decide) (by decide) (by decide),
      key " Andnot ".data " ANDNOT ".data " OR ".data (by decide) (by decide) (by decide),
      replaceSub_self " ANDNOT ".data]
  · simp only [opsUpper, opsSrc, List.foldl_cons, List.foldl_nil]
    rw [key " and ".data " AND ".data " andnot ".data (by decide) (by decide) (by decide),
      key " And ".data " AND ".data " andnot ".data (by decide) (by decide) (by decide),
      replaceSub_self " AND ".data,
      key " or ".data " OR ".data " andnot ".data (by decide) (by decide) (by decide),
      key " Or ".data " OR ".data " andnot ".data (by decide) (by decide) (by decide),
      replaceSub_self " OR ".data,
      key2 " ANDNOT ".data " andnot ".data "andnot ".data (by decide),
      key " Andnot ".data " ANDNOT ".data " ANDNOT ".data (by decide) (by decide) (by decide),
      replaceSub_self " ANDNOT ".data]
  · simp only [opsUpper, opsSrc, List.foldl_cons, List.foldl_nil]
    rw [key " and ".data " AND ".data " Andnot ".data (by decide) (by decide) (by decide),
      key " And ".data " AND ".data " Andnot ".data (by decide) (by decide) (by decide),
      replaceSub_self " AND ".data,
      key " or ".data " OR ".data " Andnot ".data (by decide) (by decide) (by decide),
      key " Or ".data " OR ".data " Andnot ".data (by decide) (by decide) (by decide),
      replaceSub_self " OR ".data,
      key " andnot ".data " ANDNOT ".data " Andnot ".data (by decide) (by decide) (by decide),
      key2 " ANDNOT ".data " Andnot ".data "Andnot ".data (by decide),
      replaceSub_self " ANDNOT ".data]
  · simp only [opsUpper, opsSrc, List.foldl_cons, List.foldl_nil]
    rw [key " and ".data " AND ".data " ANDNOT ".data (by decide) (by decide) (by decide),
      key " And ".data " AND ".data " ANDNOT ".data (by decide) (by decide) (by decide),
      replaceSub_self " AND ".data,
      key " or ".data " OR ".data " ANDNOT ".data (by decide) (by decide) (by decide),
      key " Or ".data " OR ".data " ANDNOT ".data (by decide) (by decide) (by decide),
      replaceSub_self " OR ".data,
      key " andnot ".data " ANDNOT ".data " ANDNOT ".data (by decide) (by decide) (by decide),
      key " Andnot ".data " ANDNOT ".data " ANDNOT ".data (by decide) (by decide) (by decide),
      replaceSub_self " ANDNOT ".data]

theorem normalizeList_single_op (pr : List Char × List Char) (hpr : pr ∈ opsSrc)
    (a b : List Char) (hane : a ≠ []) (hbne : b ≠ [])
    (haws : ∀ c ∈ a, isWsChar c = false) (hbws : ∀ c ∈ b, isWsChar c = false)
    (haq : ∀ c ∈ a, isQuoteChar c = false) (hbq : ∀ c ∈ b, isQuoteChar c = false)
    (hacur : ∀ c ∈ a, isCurly c = false) (hbcur : ∀ c ∈ b, isCurly c = false)
    (hlast : a.getLast? ≠ some '(') (hhead : b.head? ≠ some ')') :
    normalizeList (a ++ (pr.1 ++ b)) = a ++ (pr.2 ++ b) := by
  have hfacts : (∀ c ∈ pr.1, isQuoteChar c = false) ∧ (∀ c ∈ pr.1, isCurly c = false)
      ∧ wsnB pr.1 = true ∧ noCloseWsB pr.1 = true
      ∧ pr.1.head? = some ' ' ∧ pr.1.getLast? = some ' '
      ∧ (∀ c ∈ pr.2, isQuoteChar c = false) ∧ (∀ c ∈ pr.2, isCurly c = false)
      ∧ wsnB pr.2 = true ∧ noOpenWsB pr.2 = true ∧ noCloseWsB pr.2 = true
      ∧ pr.2.head? = some ' ' ∧ pr.2.getLast? = some ' ' := by
    fin_cases hpr <;> decide
  obtain ⟨h1q, h1cur, h1wsn, h1close, h1head, h1last,
    h2q, h2cur, h2wsn, h2open, h2close, h2head, h2last⟩ := hfacts
  have hmemP : ∀ (m : List Char) (P : Char → Bool), (∀ c ∈ a, P c = false) →
      (∀ c ∈ m, P c = false) → (∀ c ∈ b, P c = false) →
      ∀ c ∈ a ++ (m ++ b), P c = false := by
    intro m P h1 h2 h3 c hc
    rcases List.mem_append.mp hc with hc | hc
    · exact h1 c hc
    · rcases List.mem_append.mp hc with hc | hc
      · exact h2 c hc
      · exact h3 c hc
  have hmidhead : ∀ (m : List Char), m.head? = some ' ' →
      (m ++ b).head? = some ' ' := by
    intro m hm
    cases m with
    | nil => simp at hm
    | cons mh mt => simpa using hm
  have hwsnS : ∀ m : List Char, wsnB m = true → m.head? = some ' ' →
      m.getLast? = some ' ' → wsnB (a ++ (m ++ b)) = true := by
    intro m hm hmh hml
    rw [wsnB_append]
    refine ⟨wsn_of_wsFree a haws, ?_, ?_⟩
    · rw [wsnB_append]
      refine ⟨hm, wsn_of_wsFree b hbws, ?_⟩
      intro x y hx hy
      simp [hbws y (head?_mem_self b y hy)]
    · intro x y hx hy
      simp [haws x (getLast?_mem_self a x hx)]
  have hopenS : ∀ m : List Char, noOpenWsB m = true → m.head? = some ' ' →
      noOpenWsB (a ++ (m ++ b)) = true := by
    intro m hm hmh
    unfold noOpenWsB at *
    rw [noPairB_append]
    refine ⟨noPairB_of_mem _ _ fun x y hx hy => by simp [haws y hy], ?_, ?_⟩
    · rw [noPairB_append]
      refine ⟨hm, noPairB_of_mem _ _ fun x y hx hy => by simp [hbws y hy], ?_⟩
      intro x y hx hy
      simp [hbws y (head?_mem_self b y hy)]
    · intro x y hx hy
      have hy' : y = ' ' := by
        have := hmidhead m hmh
        rw [this] at hy
        cases hy
        rfl
      have hxne : x ≠ '(' := fun he => hlast (by rw [hx, he])
      subst hy'
      simp [hxne]
  have hcloseS : ∀ m : List Char, noCloseWsB m = true → m.head? = some ' ' →
      noCloseWsB (a ++ (m ++ b)) = true := by
    intro m hm hmh
    unfold noCloseWsB at *
    rw [noPairB_append]
    refine ⟨noPairB_of_mem _ _ fun x y hx hy => by simp [haws x hx], ?_, ?_⟩
    · rw [noPairB_append]
      refine ⟨hm, noPairB_of_mem _ _ fun x y hx hy => by simp [hbws x hx], ?_⟩
      intro x y hx hy
      have hyne : y ≠ ')' := fun he => hhead (by rw [hy, he])
      simp [hyne]
    · intro x y hx hy
      have hy' : y = ' ' := by
        have := hmidhead m hmh
        rw [this] at hy
        cases hy
        rfl
      subst hy'
      simp
  have hh : ∀ m : List Char, headWs (a ++ (m ++ b)) = false := by
    intro m
    cases a with
    | nil => exact absurd rfl hane
    | cons x a' => simpa [headWs] using haws x (by simp)
  have hr : ∀ m : List Char, headWs (a ++ (m ++ b)).reverse = false := by
    intro m
    rw [show a ++ (m ++ b) = (a ++ m) ++ b by simp, List.reverse_append]
    cases hrev : b.reverse with
    | nil => exact absurd (List.reverse_eq_nil_iff.mp hrev) hbne
    | cons c t =>
      simp only [List.cons_append, headWs]
      exact hbws c (by rw [← List.mem_reverse, hrev]; simp)
  show pyStrip (collapseMulti (parenClose (parenOpen (subMeta2 (subMeta1 (opsUpper
    (collapseWs ((pyStrip (a ++ (pr.1 ++ b))).map normQuote)))))))) = _
  rw [pyStrip_id _ (hh pr.1) (hr pr.1)]
  rw [map_normQuote_id _ fun c hc => normQuote_id_of_not_curly c
    (hmemP pr.1 isCurly hacur h1cur hbcur c hc)]
  rw [collapseWs_id _ (hwsnS pr.1 h1wsn h1head h1last)]
  rw [opsUpper_single pr hpr a b haws hbws]
  rw [subMeta1_id_of_noQuote _ (hmemP pr.2 isQuoteChar haq h2q hbq)]
  rw [subMeta2_id_of_noQuote _ (hmemP pr.2 isQuoteChar haq h2q hbq)]
  rw [parenOpen_id _ (hopenS pr.2 h2open h2head)]
  rw [parenClose_id _ (hcloseS pr.2 h2close h2head)]
  rw [collapseMulti_id _ (hwsnS pr.2 h2wsn h2head h2last)]
  exact pyStrip_id _ (hh pr.2) (hr pr.2)

set_option maxHeartbeats 2000000 in
unseal collapseWs collapseMulti parenOpen parenClose replaceSub subMeta1 subMeta2 in
/-- C2 counterexample: in the input `A and and B` both `and` tokens are
surrounded by spaces, yet the translator produces `A AND and B` — the
second occurrence shares its leading space with the first, just-replaced
occurrence, and the non-overlapping left-to-right substitution skips it,
so a spaced lowercase `and` survives in the output. -/
theorem C2_counterexample :
    normalize_command_search_to_arxiv "A and and B" = "A AND and B"
    ∧ containsSub " and ".data
        (normalize_command_search_to_arxiv "A and and B").data = true := by
  refine ⟨rfl, ?_⟩
  decide

set_option maxHeartbeats 2000000 in
unseal collapseWs collapseMulti parenOpen parenClose replaceSub subMeta1 subMeta2 in
/-- C2 (amended): the translator uppercases the boolean connective tokens
`and`, `or`, `andnot` appearing surrounded by spaces (in lowercase,
Capitalized and UPPERCASE forms) by literal left-to-right,
non-overlapping substitution; an occurrence that shares its surrounding
space with a just-replaced occurrence is not rewritten.  Consequently a
single spaced connective between two nonempty whitespace-free,
quote-free, non-curly chunks (not ending in `(` and not starting
with `)`) is uppercased, and `A and (B or C)` translates to
`A AND (B OR C)`. -/
theorem C2_connective_uppercase :
    (∀ pr ∈ opsSrc, ∀ a b : List Char,
      a ≠ [] → b ≠ [] →
      (∀ c ∈ a, isWsChar c = false) → (∀ c ∈ b, isWsChar c = false) →
      (∀ c ∈ a, isQuoteChar c = false) → (∀ c ∈ b, isQuoteChar c = false) →
      (∀ c ∈ a, isCurly c = false) → (∀ c ∈ b, isCurly c = false) →
      a.getLast? ≠ some '(' → b.head? ≠ some ')' →
      normalize_command_search_to_arxiv (String.mk (a ++ (pr.1 ++ b)))
        = String.mk (a ++ (pr.2 ++ b))) ∧
    normalize_command_search_to_arxiv "A and (B or C)" = "A AND (B OR C)" :=
  ⟨fun pr hpr a b hane hbne haws hbws haq hbq hacur hbcur hlast hhead =>
    congrArg String.mk (normalizeList_single_op pr hpr a b hane hbne haws hbws
      haq hbq hacur hbcur hlast hhead),
  rfl⟩

/-- Witness for `C2_connective_uppercase`: `X or Y` translates to `X OR Y`. -/
theorem C2_connective_uppercase_witness :
    normalize_command_search_to_arxiv
      (String.mk ("X".data ++ (" or ".data ++ "Y".data)))
      = String.mk ("X".data ++ (" OR ".data ++ "Y".data)) :=
  C2_connective_uppercase.1 (" or ".data, " OR ".data) (by decide) "X".data "Y".data
    (by decide) (by decide) (by decide) (by decide) (by decide) (by decide)
    (by decide) (by decide) (by decide) (by decide)

/-! ### Structural facts about the translator output (for C7/C8) -/

theorem noPairB_suffix (bad : Char → Char → Bool) (t s : List Char)
    (hts : t <:+ s) (h : noPairB bad s = true) : noPairB bad t = true := by
  rcases hts with ⟨u, rfl⟩
  exact ((noPairB_append bad u t).mp h).2.1

theorem noPairB_isPre (bad : Char → Char → Bool) (t s : List Char)
    (hts : t <+: s) (h : noPairB bad s = true) : noPairB bad t = true := by
  rcases hts with ⟨u, rfl⟩
  exact ((noPairB_append bad t u).mp h).1

theorem pyStrip_isPre_of_suffix (s : List Char) :
    ∃ t, t <:+ s ∧ pyStrip s <+: t := by
  refine ⟨s.dropWhile isWsChar, List.dropWhile_suffix _, ?_⟩
  unfold pyStrip
  have := List.reverse_prefix.mpr
    (List.dropWhile_suffix (l := (List.dropWhile isWsChar s).reverse) isWsChar)
  simpa using this

theorem noPairB_pyStrip (bad : Char → Char → Bool) (s : List Char)
    (h : noPairB bad s = true) : noPairB bad (pyStrip s) = true := by
  rcases pyStrip_isPre_of_suffix s with ⟨t, hts, hpre⟩
  exact noPairB_isPre bad _ t hpre (noPairB_suffix bad t s hts h)

theorem noPairB_cons_of (bad : Char → Char → Bool) (x : Char) (l : List Char)
    (h1 : ∀ y, l.head? = some y → bad x y = false) (h2 : noPairB bad l = true) :
    noPairB bad (x :: l) = true := by
  cases l with
  | nil => rfl
  | cons y ys =>
    show (!bad x y && noPairB bad (y :: ys)) = true
    rw [h1 y rfl, h2]
    rfl

theorem parenOpen_head (s : List Char) : (parenOpen s).head? = s.head? := by
  cases s with
  | nil => rw [parenOpen_nil]
  | cons a rest =>
    rw [parenOpen]
    by_cases h : (a = '(' && headWs rest) = true
    · rcases Bool.and_eq_true .. ▸ h with ⟨h1, -⟩
      rw [if_pos h]
      simp only [List.head?_cons]
      simp only [decide_eq_true_eq] at h1
      rw [h1]
    · rw [Bool.eq_false_iff.mpr h]
      simp

theorem parenOpen_noOpenWs (s : List Char) : noOpenWsB (parenOpen s) = true := by
  have H : ∀ n (s : List Char), s.length ≤ n → noOpenWsB (parenOpen s) = true := by
    intro n
    induction n with
    | zero =>
      intro s hs
      rw [List.length_eq_zero.mp (Nat.le_zero.mp hs)]
      rw [parenOpen_nil]
      rfl
    | succ n ih =>
      intro s hs
      cases s with
      | nil => rw [parenOpen_nil]; rfl
      | cons a rest =>
        rw [parenOpen]
        by_cases h : (a = '(' && headWs rest) = true
        · rw [if_pos h]
          refine noPairB_cons_of _ _ _ ?_ (ih _ ?_)
          · intro y hy
            rw [parenOpen_head] at hy
            have hnws : isWsChar y = false := by
              cases hd : rest.dropWhile isWsChar with
              | nil => rw [hd] at hy; simp at hy
              | cons d ds =>
                rw [hd] at hy
                simp only [List.head?_cons, Option.some.injEq] at hy
                subst hy
                have := List.head?_dropWhile_not isWsChar rest
                rw [hd] at this
                simpa using this
            simp [hnws]
          · have := lengthDropWhileLe isWsChar rest
            simp only [List.length_cons] at hs
            omega
        · rw [Bool.eq_false_iff.mpr h]
          simp only [Bool.false_eq_true, if_false]
          refine noPairB_cons_of _ _ _ ?_ (ih _ ?_)
          · intro y hy
            rw [parenOpen_head] at hy
            by_cases ha : a = '('
            · have hws : headWs rest = false := by
                by_contra hws
                exact h (by simp [ha, Bool.eq_true_of_ne_false hws])
              have : isWsChar y = false := by
                cases rest with
                | nil => simp at hy
                | cons r0 rt =>
                  simp only [List.head?_cons, Option.some.injEq] at hy
                  subst hy
                  simpa [headWs] using hws
              simp [this]
            · simp [ha]
          · simp only [List.length_cons] at hs
            omega
  exact H s.length s le_rfl

theorem parenClose_head_cases (s : List Char) :
    (parenClose s).head? = s.head? ∨ (parenClose s).head? = some ')' := by
  cases s with
  | nil => left; rw [parenClose_nil]
  | cons a rest =>
    rw [parenClose]
    by_cases h : (isWsChar a && headClose (rest.dropWhile isWsChar)) = true
    · rw [if_pos h]; right; rfl
    · rw [Bool.eq_false_iff.mpr h]; left; simp

theorem parenClose_head_of_not (rest : List Char)
    (h : headClose (rest.dropWhile isWsChar) = false) :
    (parenClose rest).head? = rest.head? := by
  cases rest with
  | nil => rw [parenClose_nil]
  | cons r0 rt =>
    rw [parenClose]
    have hcond : (isWsChar r0 && headClose (rt.dropWhile isWsChar)) = false := by
      by_cases hws : isWsChar r0 = true
      · have : (r0 :: rt).dropWhile isWsChar = rt.dropWhile isWsChar := by
          simp [List.dropWhile, hws]
        rw [this] at h
        simp [h]
      · simp [Bool.eq_false_iff.mpr hws]
    rw [hcond]
    simp

theorem parenClose_preserves_open (s : List Char) (h : noOpenWsB s = true) :
    noOpenWsB (parenClose s) = true := by
  have H : ∀ n (s : List Char), s.length ≤ n → noOpenWsB s = true →
      noOpenWsB (parenClose s) = true := by
    intro n
    induction n with
    | zero =>
      intro s hs _
      rw [List.length_eq_zero.mp (Nat.le_zero.mp hs), parenClose_nil]
      rfl
    | succ n ih =>
      intro s hs h
      cases s with
      | nil => rw [parenClose_nil]; rfl
      | cons a rest =>
        rw [parenClose]
        by_cases hc : (isWsChar a && headClose (rest.dropWhile isWsChar)) = true
        · rw [if_pos hc]
          refine noPairB_cons_of _ _ _ (fun y _ => by simp) (ih _ ?_ ?_)
          · have h1 := lengthDropWhileLe isWsChar rest
            simp only [List.length_tail, List.length_cons] at *
            omega
          · refine noPairB_suffix _ _ (a :: rest) ?_ h
            exact ((List.tail_suffix _).trans (List.dropWhile_suffix _)).trans
              (List.suffix_cons a rest)
        · rw [Bool.eq_false_iff.mpr hc]
          simp only [Bool.false_eq_true, if_false]
          refine noPairB_cons_of _ _ _ ?_
            (ih _ (by simp only [List.length_cons] at hs; omega) (noPairB_tail _ _ _ h))
          intro y hy
          rcases parenClose_head_cases rest with he | he
          · rw [he] at hy
            cases rest with
            | nil => simp at hy
            | cons r0 rt =>
              simp only [List.head?_cons, Option.some.injEq] at hy
              subst hy
              exact noPairB_head _ a r0 rt h
          · rw [he] at hy
            cases hy
            simp [isWsChar]
            intro hmem
            decide
  exact H s.length s le_rfl h

theorem parenClose_noCloseWs (s : List Char) : noCloseWsB (parenClose s) = true := by
  have H : ∀ n (s : List Char), s.length ≤ n → noCloseWsB (parenClose s) = true := by
    intro n
    induction n with
    | zero =>
      intro s hs
      rw [List.length_eq_zero.mp (Nat.le_zero.mp hs), parenClose_nil]
      rfl
    | succ n ih =>
      intro s hs
      cases s with
      | nil => rw [parenClose_nil]; rfl
      | cons a rest =>
        rw [parenClose]
        by_cases hc : (isWsChar a && headClose (rest.dropWhile isWsChar)) = true
        · rw [if_pos hc]
          refine noPairB_cons_of _ _ _
            (fun y _ => by
              simp [isWsChar]
              intro hmem
              exact absurd hmem (by decide))
            (ih _ ?_)
          have h1 := lengthDropWhileLe isWsChar rest
          simp only [List.length_tail, List.length_cons] at *
          omega
        · rw [Bool.eq_false_iff.mpr hc]
          simp only [Bool.false_eq_true, if_false]
          refine noPairB_cons_of _ _ _ ?_
            (ih _ (by simp only [List.length_cons] at hs; omega))
          intro y hy
          by_cases hws : isWsChar a = true
          · have hhc : headClose (rest.dropWhile isWsChar) = false := by
              by_contra hh
              exact hc (by simp [hws, Bool.eq_true_of_ne_false hh])
            rw [parenClose_head_of_not rest hhc] at hy
            cases rest with
            | nil => simp at hy
            | cons r0 rt =>
              simp only [List.head?_cons, Option.some.injEq] at hy
              subst hy
              have hr0 : r0 ≠ ')' := by
                by_cases hwr : isWsChar r0 = true
                · intro he; rw [he] at hwr; cases hwr
                · have : (r0 :: rt).dropWhile isWsChar = r0 :: rt :=
                    dropWhile_headNot _ (by simp [headWs, hwr])
                  rw [this] at hhc
                  simpa [headClose] using hhc
              simp [hr0]
          · simp [Bool.eq_false_iff.mpr hws]
  exact H s.length s le_rfl

theorem collapseMulti_headWs (s : List Char) :
    headWs (collapseMulti s) = headWs s := by
  cases s with
  | nil => rw [collapseMulti_nil]
  | cons a rest =>
    rw [collapseMulti]
    by_cases h : (isWsChar a && headWs rest) = true
    · rw [if_pos h]
      rcases Bool.and_eq_true .. ▸ h with ⟨h1, -⟩
      simp only [headWs]
      rw [h1]
      decide
    · rw [Bool.eq_false_iff.mpr h]
      simp [headWs]

theorem collapseMulti_head_nonws (s : List Char) (d : Char)
    (h : s.head? = some d) (hd : isWsChar d = false) :
    (collapseMulti s).head? = some d := by
  cases s with
  | nil => simp at h
  | cons a rest =>
    simp only [List.head?_cons, Option.some.injEq] at h
    subst h
    rw [collapseMulti]
    rw [show (isWsChar a && headWs rest) = false by simp [hd]]
    simp

theorem collapseMulti_preserves_open (s : List Char) (h : noOpenWsB s = true) :
    noOpenWsB (collapseMulti s) = true := by
  have H : ∀ n (s : List Char), s.length ≤ n → noOpenWsB s = true →
      noOpenWsB (collapseMulti s) = true := by
    intro n
    induction n with
    | zero =>
      intro s hs _
      rw [List.length_eq_zero.mp (Nat.le_zero.mp hs), collapseMulti_nil]
      rfl
    | succ n ih =>
      intro s hs h
      cases s with
      | nil => rw [collapseMulti_nil]; rfl
      | cons a rest =>
        rw [collapseMulti]
        by_cases hc : (isWsChar a && headWs rest) = true
        · rw [if_pos hc]
          refine noPairB_cons_of _ _ _ (fun y _ => by simp) (ih _ ?_ ?_)
          · have h1 := lengthDropWhileLe isWsChar rest
            simp only [List.length_cons] at hs
            omega
          · exact noPairB_suffix _ _ (a :: rest)
              ((List.dropWhile_suffix _).trans (List.suffix_cons a rest)) h
        · rw [Bool.eq_false_iff.mpr hc]
          simp only [Bool.false_eq_true, if_false]
          refine noPairB_cons_of _ _ _ ?_
            (ih _ (by simp only [List.length_cons] at hs; omega) (noPairB_tail _ _ _ h))
          intro y hy
          by_cases ha : a = '('
          · cases rest with
            | nil =>
              rw [collapseMulti_nil] at hy
              simp at hy
            | cons r0 rt =>
              have hr0 : isWsChar r0 = false := by
                have := noPairB_head _ a r0 rt h
                simpa [ha] using this
              have hws : isWsChar y = false := by
                have hhw := collapseMulti_headWs (r0 :: rt)
                rw [show headWs (r0 :: rt) = false by simp [headWs, hr0]] at hhw
                cases hcm : collapseMulti (r0 :: rt) with
                | nil => rw [hcm] at hy; simp at hy
                | cons z zs =>
                  rw [hcm] at hy hhw
                  simp only [List.head?_cons, Option.some.injEq] at hy
                  subst hy
                  simpa [headWs] using hhw
              simp [hws]
          · simp [ha]
  exact H s.length s le_rfl h

theorem collapseMulti_preserves_close (s : List Char) (h : noCloseWsB s = true) :
    noCloseWsB (collapseMulti s) = true := by
  have H : ∀ n (s : List Char), s.length ≤ n → noCloseWsB s = true →
      noCloseWsB (collapseMulti s) = true := by
    intro n
    induction n with
    | zero =>
      intro s hs _
      rw [List.length_eq_zero.mp (Nat.le_zero.mp hs), collapseMulti_nil]
      rfl
    | succ n ih =>
      intro s hs h
      cases s with
      | nil => rw [collapseMulti_nil]; rfl
      | cons a rest =>
        rw [collapseMulti]
        by_cases hc : (isWsChar a && headWs rest) = true
        · rw [if_pos hc]
          rcases Bool.and_eq_true .. ▸ hc with ⟨hws, -⟩
          refine noPairB_cons_of _ _ _ ?_ (ih _ ?_ ?_)
          · intro y hy
            have hhc : headClose (rest.dropWhile isWsChar) = false :=
              headClose_dropWhile_false rest a h hws
            cases hd : rest.dropWhile isWsChar with
            | nil =>
              rw [hd, collapseMulti_nil] at hy
              simp at hy
            | cons d ds =>
              have hdws : isWsChar d = false := by
                have := List.head?_dropWhile_not isWsChar rest
                rw [hd] at this
                simpa using this
              rw [hd, collapseMulti_head_nonws (d :: ds) d (by simp) hdws] at hy
              have hyd : y = d := by injection hy with h'; exact h'.symm
              subst hyd
              have hdne : y ≠ ')' := by
                rw [hd] at hhc
                simpa [headClose] using hhc
              simp [hdne]
          · have h1 := lengthDropWhileLe isWsChar rest
            simp only [List.length_cons] at hs
            omega
          · exact noPairB_suffix _ _ (a :: rest)
              ((List.dropWhile_suffix _).trans (List.suffix_cons a rest)) h
        · rw [Bool.eq_false_iff.mpr hc]
          simp only [Bool.false_eq_true, if_false]
          refine noPairB_cons_of _ _ _ ?_
            (ih _ (by simp only [List.length_cons] at hs; omega) (noPairB_tail _ _ _ h))
          intro y hy
          by_cases hws : isWsChar a = true
          · have hrest : headWs rest = false := by
              by_contra hh
              exact hc (by simp [hws, Bool.eq_true_of_ne_false hh])
            cases rest with
            | nil =>
              rw [collapseMulti_nil] at hy
              simp at hy
            | cons r0 rt =>
              have hr0 : isWsChar r0 = false := by simpa [headWs] using hrest
              rw [collapseMulti_head_nonws (r0 :: rt) r0 (by simp) hr0] at hy
              have hyr : y = r0 := by injection hy with h'; exact h'.symm
              subst hyr
              exact noPairB_head _ a y rt h
          · simp [Bool.eq_false_iff.mpr hws]
  exact H s.length s le_rfl h

theorem normalizeList_noParenWs (s : List Char) :
    noOpenWsB (normalizeList s) = true ∧ noCloseWsB (normalizeList s) = true := by
  constructor
  · exact noPairB_pyStrip _ _ (collapseMulti_preserves_open _
      (parenClose_preserves_open _ (parenOpen_noOpenWs _)))
  · exact noPairB_pyStrip _ _ (collapseMulti_preserves_close _
      (parenClose_noCloseWs _))

/-- C8: for every input string, the translator's output contains no
whitespace directly after an opening parenthesis and no whitespace
directly before a closing parenthesis; in particular translating
`( "All Metadata":"x" )` yields a string with no space after `(` nor
before `)`. -/
theorem C8_paren_spacing :
    (∀ x : String,
      noOpenWsB (normalize_command_search_to_arxiv x).data = true ∧
      noCloseWsB (normalize_command_search_to_arxiv x).data = true) ∧
    (noOpenWsB (normalize_command_search_to_arxiv "( \"All Metadata\":\"x\" )").data
        = true ∧
      noCloseWsB (normalize_command_search_to_arxiv "( \"All Metadata\":\"x\" )").data
        = true) :=
  ⟨fun x => normalizeList_noParenWs x.data,
    normalizeList_noParenWs ("( \"All Metadata\":\"x\" )").data⟩

theorem pyStrip_head (s : List Char) : headWs (pyStrip s) = false := by
  have hpre : pyStrip s <+: s.dropWhile isWsChar := by
    unfold pyStrip
    have := List.reverse_prefix.mpr
      (List.dropWhile_suffix (l := (List.dropWhile isWsChar s).reverse) isWsChar)
    simpa using this
  cases hp : pyStrip s with
  | nil => rfl
  | cons c cs =>
    rcases hpre with ⟨u, hu⟩
    rw [hp] at hu
    have hc : (s.dropWhile isWsChar).head? = some c := by rw [← hu]; rfl
    have hnot := List.head?_dropWhile_not isWsChar s
    rw [hc] at hnot
    simp only [headWs]
    simpa using hnot

theorem pyStrip_rev_head (s : List Char) : headWs (pyStrip s).reverse = false := by
  unfold pyStrip
  rw [List.reverse_reverse]
  cases hd : (s.dropWhile isWsChar).reverse.dropWhile isWsChar with
  | nil => rfl
  | cons c cs =>
    have hnot := List.head?_dropWhile_not isWsChar (s.dropWhile isWsChar).reverse
    rw [hd] at hnot
    simp only [headWs]
    simpa using hnot

theorem pyStrip_idem (s : List Char) : pyStrip (pyStrip s) = pyStrip s :=
  pyStrip_id _ (pyStrip_head s) (pyStrip_rev_head s)

theorem mem_pyStrip (s : List Char) (c : Char) (h : c ∈ pyStrip s) : c ∈ s := by
  rcases pyStrip_isPre_of_suffix s with ⟨t, hts, hpre⟩
  exact hts.subset (hpre.subset h)

theorem mem_collapseWs (s : List Char) (c : Char) (h : c ∈ collapseWs s) :
    c ∈ s ∨ c = ' ' := by
  have H : ∀ n (s : List Char), s.length ≤ n → ∀ c ∈ collapseWs s, c ∈ s ∨ c = ' ' := by
    intro n
    induction n with
    | zero =>
      intro s hs c hc
      rw [List.length_eq_zero.mp (Nat.le_zero.mp hs), collapseWs_nil] at hc
      simp at hc
    | succ n ih =>
      intro s hs c hc
      cases s with
      | nil => rw [collapseWs_nil] at hc; simp at hc
      | cons a rest =>
        rw [collapseWs] at hc
        by_cases hw : isWsChar a = true
        · rw [if_pos hw] at hc
          rcases List.mem_cons.mp hc with rfl | hc
          · right; rfl
          · have hlen : (rest.dropWhile isWsChar).length ≤ n := by
              have := lengthDropWhileLe isWsChar rest
              simp only [List.length_cons] at hs
              omega
            rcases ih _ hlen c hc with hmem | hsp
            · exact Or.inl (by
                simp [List.mem_cons, (List.dropWhile_sublist isWsChar).subset hmem])
            · exact Or.inr hsp
        · rw [if_neg hw] at hc
          rcases List.mem_cons.mp hc with rfl | hc
          · exact Or.inl (by simp)
          · rcases ih rest (by simp only [List.length_cons] at hs; omega) c hc with
              hmem | hsp
            · exact Or.inl (by simp [hmem])
            · exact Or.inr hsp
  exact H s.length s le_rfl c h

theorem mem_replaceSub (pat rep s : List Char) (c : Char)
    (h : c ∈ replaceSub pat rep s) : c ∈ s ∨ c ∈ rep := by
  have H : ∀ n (s : List Char), s.length ≤ n →
      ∀ c ∈ replaceSub pat rep s, c ∈ s ∨ c ∈ rep := by
    intro n
    induction n with
    | zero =>
      intro s hs c hc
      rw [List.length_eq_zero.mp (Nat.le_zero.mp hs)] at hc
      rw [replaceSub] at hc
      simp at hc
    | succ n ih =>
      intro s hs c hc
      cases s with
      | nil => rw [replaceSub] at hc; simp at hc
      | cons a rest =>
        rw [replaceSub] at hc
        by_cases hcond : pat ≠ [] ∧ beginsWith pat (a :: rest) = true
        · rw [dif_pos hcond] at hc
          rcases List.mem_append.mp hc with hc | hc
          · exact Or.inr hc
          · have hp : pat.length ≠ 0 := fun h0 => hcond.1 (List.length_eq_zero.mp h0)
            have hlen : ((a :: rest).drop pat.length).length ≤ n := by
              simp only [List.length_drop, List.length_cons] at *
              omega
            rcases ih _ hlen c hc with hmem | hr
            · exact Or.inl (List.drop_subset _ _ hmem)
            · exact Or.inr hr
        · rw [dif_neg hcond] at hc
          rcases List.mem_cons.mp hc with rfl | hc
          · exact Or.inl (by simp)
          · rcases ih rest (by simp only [List.length_cons] at hs; omega) c hc with
              hmem | hr
            · exact Or.inl (by simp [hmem])
            · exact Or.inr hr
  exact H s.length s le_rfl c h

theorem mem_parenOpen (s : List Char) (c : Char) (h : c ∈ parenOpen s) : c ∈ s := by
  have H : ∀ n (s : List Char), s.length ≤ n → ∀ c ∈ parenOpen s, c ∈ s := by
    intro n
    induction n with
    | zero =>
      intro s hs c hc
      rw [List.length_eq_zero.mp (Nat.le_zero.mp hs), parenOpen_nil] at hc
      simp at hc
    | succ n ih =>
      intro s hs c hc
      cases s with
      | nil => rw [parenOpen_nil] at hc; simp at hc
      | cons a rest =>
        rw [parenOpen] at hc
        by_cases hcond : (a = '(' && headWs rest) = true
        · rw [if_pos hcond] at hc
          rcases Bool.and_eq_true .. ▸ hcond with ⟨h1, -⟩
          simp only [decide_eq_true_eq] at h1
          rcases List.mem_cons.mp hc with rfl | hc
          · simp [h1]
          · have hlen : (rest.dropWhile isWsChar).length ≤ n := by
              have := lengthDropWhileLe isWsChar rest
              simp only [List.length_cons] at hs
              omega
            exact List.mem_cons_of_mem a
              ((List.dropWhile_sublist isWsChar).subset (ih _ hlen c hc))
        · rw [Bool.eq_false_iff.mpr hcond] at hc
          simp only [Bool.false_eq_true, if_false] at hc
          rcases List.mem_cons.mp hc with rfl | hc
          · simp
          · exact List.mem_cons_of_mem a
              (ih rest (by simp only [List.length_cons] at hs; omega) c hc)
  exact H s.length s le_rfl c h

theorem mem_parenClose (s : List Char) (c : Char) (h : c ∈ parenClose s) :
    c ∈ s ∨ c = ')' := by
  have H : ∀ n (s : List Char), s.length ≤ n → ∀ c ∈ parenClose s, c ∈ s ∨ c = ')' := by
    intro n
    induction n with
    | zero =>
      intro s hs c hc
      rw [List.length_eq_zero.mp (Nat.le_zero.mp hs), parenClose_nil] at hc
      simp at hc
    | succ n ih =>
      intro s hs c hc
      cases s with
      | nil => rw [parenClose_nil] at hc; simp at hc
      | cons a rest =>
        rw [parenClose] at hc
        by_cases hcond : (isWsChar a && headClose (rest.dropWhile isWsChar)) = true
        · rw [if_pos hcond] at hc
          rcases List.mem_cons.mp hc with rfl | hc
          · right; rfl
          · have hlen : ((rest.dropWhile isWsChar).tail).length ≤ n := by
              have h1 := lengthDropWhileLe isWsChar rest
              simp only [List.length_tail, List.length_cons] at *
              omega
            rcases ih _ hlen c hc with hmem | hr
            · exact Or.inl (List.mem_cons_of_mem a
                ((List.dropWhile_sublist isWsChar).subset ((List.tail_sublist _).subset hmem)))
            · exact Or.inr hr
        · rw [Bool.eq_false_iff.mpr hcond] at hc
          simp only [Bool.false_eq_true, if_false] at hc
          rcases List.mem_cons.mp hc with rfl | hc
          · exact Or.inl (by simp)
          · rcases ih rest (by simp only [List.length_cons] at hs; omega) c hc with
              hmem | hr
            · exact Or.inl (by simp [hmem])
            · exact Or.inr hr
  exact H s.length s le_rfl c h

theorem mem_collapseMulti (s : List Char) (c : Char) (h : c ∈ collapseMulti s) :
    c ∈ s ∨ c = ' ' := by
  have H : ∀ n (s : List Char), s.length ≤ n →
      ∀ c ∈ collapseMulti s, c ∈ s ∨ c = ' ' := by
    intro n
    induction n with
    | zero =>
      intro s hs c hc
      rw [List.length_eq_zero.mp (Nat.le_zero.mp hs), collapseMulti_nil] at hc
      simp at hc
    | succ n ih =>
      intro s hs c hc
      cases s with
      | nil => rw [collapseMulti_nil] at hc; simp at hc
      | cons a rest =>
        rw [collapseMulti] at hc
        by_cases hcond : (isWsChar a && headWs rest) = true
        · rw [if_pos hcond] at hc
          rcases List.mem_cons.mp hc with rfl | hc
          · right; rfl
          · have hlen : (rest.dropWhile isWsChar).length ≤ n := by
              have := lengthDropWhileLe isWsChar rest
              simp only [List.length_cons] at hs
              omega
            rcases ih _ hlen c hc with hmem | hr
            · exact Or.inl (List.mem_cons_of_mem a
                ((List.dropWhile_sublist isWsChar).subset hmem))
            · exact Or.inr hr
        · rw [Bool.eq_false_iff.mpr hcond] at hc
          simp only [Bool.false_eq_true, if_false] at hc
          rcases List.mem_cons.mp hc with rfl | hc
          · exact Or.inl (by simp)
          · rcases ih rest (by simp only [List.length_cons] at hs; omega) c hc with
              hmem | hr
            · exact Or.inl (by simp [hmem])
            · exact Or.inr hr
  exact H s.length s le_rfl c h

theorem phraseLoop_subsets (q : Char) (acc s : List Char) (pr : List Char × List Char)
    (h : phraseLoop q acc s = some pr) :
    (∀ c ∈ pr.1, c ∈ acc ∨ c ∈ s) ∧ (∀ c ∈ pr.2, c ∈ s) := by
  induction s generalizing acc with
  | nil => simp [phraseLoop] at h
  | cons x rest ih =>
    simp only [phraseLoop] at h
    by_cases hq : x = q
    · rw [if_pos hq] at h
      cases h
      constructor
      · intro c hc
        exact Or.inl (by simpa using hc)
      · intro c hc
        simp [hc]
    · rw [if_neg hq] at h
      by_cases hn : x = '\n'
      · rw [if_pos hn] at h; cases h
      · rw [if_neg hn] at h
        have := ih (x :: acc) h
        constructor
        · intro c hc
          rcases this.1 c hc with hm | hm
          · rcases List.mem_cons.mp hm with rfl | hm
            · exact Or.inr (by simp)
            · exact Or.inl hm
          · exact Or.inr (by simp [hm])
        · intro c hc
          exact List.mem_cons_of_mem x (this.2 c hc)

theorem grabPhrase_subsets (q : Char) (s : List Char) (pr : List Char × List Char)
    (h : grabPhrase q s = some pr) :
    (∀ c ∈ pr.1, c ∈ s) ∧ (∀ c ∈ pr.2, c ∈ s) := by
  cases s with
  | nil => simp [grabPhrase] at h
  | cons x rest =>
    simp only [grabPhrase] at h
    by_cases hn : x = '\n'
    · rw [if_pos hn] at h; cases h
    · rw [if_neg hn] at h
      have := phraseLoop_subsets q [x] rest pr h
      constructor
      · intro c hc
        rcases this.1 c hc with hm | hm
        · simp only [List.mem_singleton] at hm
          simp [hm]
        · exact List.mem_cons_of_mem x hm
      · intro c hc
        exact List.mem_cons_of_mem x (this.2 c hc)

theorem tryMatch1_subsets (s : List Char) (pr : List Char × List Char)
    (h : tryMatch1 s = some pr) :
    (∀ c ∈ pr.1, c ∈ s) ∧ (∀ c ∈ pr.2, c ∈ s) := by
  cases s with
  | nil => simp [tryMatch1] at h
  | cons q1 rest =>
    simp only [tryMatch1] at h
    by_cases hq : isQuoteChar q1 = true
    · simp only [hq, if_true] at h
      cases hm : matchLit allMetaLit rest with
      | none => simp [hm] at h
      | some rest2 =>
        have hsub2 : ∀ c ∈ rest2, c ∈ q1 :: rest :=
          fun c hc => List.mem_cons_of_mem q1 ((matchLit_suffix _ _ _ hm).subset hc)
        simp only [hm] at h
        cases rest2 with
        | nil => simp at h
        | cons q1b rest3 =>
          by_cases hb : q1b = q1
          · simp only [hb, if_true] at h
            cases hd : rest3.dropWhile isWsChar with
            | nil => simp [hd] at h
            | cons c4 rest4 =>
              have hsub4 : ∀ c ∈ c4 :: rest4, c ∈ q1 :: rest := by
                intro c hc
                rw [← hd] at hc
                exact hsub2 c (List.mem_cons_of_mem q1b
                  ((List.dropWhile_sublist isWsChar).subset hc))
              simp only [hd] at h
              by_cases hc4 : c4 = ':'
              · simp only [hc4, if_true] at h
                cases hd2 : rest4.dropWhile isWsChar with
                | nil => simp [hd2] at h
                | cons q2 rest5 =>
                  have hsub5 : ∀ c ∈ q2 :: rest5, c ∈ q1 :: rest := by
                    intro c hc
                    rw [← hd2] at hc
                    exact hsub4 c (List.mem_cons_of_mem c4
                      ((List.dropWhile_sublist isWsChar).subset hc))
                  simp only [hd2] at h
                  by_cases hq2 : isQuoteChar q2 = true
                  · simp only [hq2, if_true] at h
                    have := grabPhrase_subsets q2 rest5 pr h
                    exact ⟨fun c hc => hsub5 c (List.mem_cons_of_mem q2 (this.1 c hc)),
                      fun c hc => hsub5 c (List.mem_cons_of_mem q2 (this.2 c hc))⟩
                  · simp [hq2] at h
              · simp [hc4] at h
          · simp [hb] at h
    · simp [hq] at h

theorem tryMatch2_subsets (s : List Char) (pr : List Char × List Char)
    (h : tryMatch2 s = some pr) :
    (∀ c ∈ pr.1, c ∈ s) ∧ (∀ c ∈ pr.2, c ∈ s) := by
  simp only [tryMatch2] at h
  cases hm : matchLit allMetaLit s with
  | none => simp [hm] at h
  | some rest =>
    have hsub : ∀ c ∈ rest, c ∈ s := fun c hc => (matchLit_suffix _ _ _ hm).subset hc
    simp only [hm] at h
    cases hd : rest.dropWhile isWsChar with
    | nil => simp [hd] at h
    | cons c2 rest2 =>
      have hsub2 : ∀ c ∈ c2 :: rest2, c ∈ s := by
        intro c hc
        rw [← hd] at hc
        exact hsub c ((List.dropWhile_sublist isWsChar).subset hc)
      simp only [hd] at h
      by_cases hc2 : c2 = ':'
      · simp only [hc2, if_true] at h
        cases hd2 : rest2.dropWhile isWsChar with
        | nil => simp [hd2] at h
        | cons q rest3 =>
          have hsub3 : ∀ c ∈ q :: rest3, c ∈ s := by
            intro c hc
            rw [← hd2] at hc
            exact hsub2 c (List.mem_cons_of_mem c2
              ((List.dropWhile_sublist isWsChar).subset hc))
          simp only [hd2] at h
          by_cases hq : isQuoteChar q = true
          · simp only [hq, if_true] at h
            have := grabPhrase_subsets q rest3 pr h
            exact ⟨fun c hc => hsub3 c (List.mem_cons_of_mem q (this.1 c hc)),
              fun c hc => hsub3 c (List.mem_cons_of_mem q (this.2 c hc))⟩
          · simp [hq] at h
      · simp [hc2] at h

theorem mem_subMeta1 (s : List Char) (c : Char) (h : c ∈ subMeta1 s) :
    c ∈ s ∨ c ∈ "all:\"".data ∨ c = '"' := by
  have H : ∀ n (s : List Char), s.length ≤ n →
      ∀ c ∈ subMeta1 s, c ∈ s ∨ c ∈ "all:\"".data ∨ c = '"' := by
    intro n
    induction n with
    | zero =>
      intro s hs c hc
      rw [List.length_eq_zero.mp (Nat.le_zero.mp hs), subMeta1_nil] at hc
      simp at hc
    | succ n ih =>
      intro s hs c hc
      cases s with
      | nil => rw [subMeta1_nil] at hc; simp at hc
      | cons a rest =>
        rw [subMeta1] at hc
        cases htm : tryMatch1 (a :: rest) with
        | some pr =>
          rw [htm] at hc
          have hsubs := tryMatch1_subsets _ _ htm
          rcases List.mem_append.mp hc with hc | hc
          · rcases List.mem_append.mp hc with hc | hc
            · exact Or.inr (Or.inl hc)
            · exact Or.inl (hsubs.1 c hc)
          · rcases List.mem_cons.mp hc with rfl | hc
            · exact Or.inr (Or.inr rfl)
            · have hlen : pr.2.length ≤ n := by
                have := tryMatch1_rest_length _ _ htm
                simp only [List.length_cons] at this hs
                omega
              rcases ih _ hlen c hc with hm | hr
              · exact Or.inl (hsubs.2 c hm)
              · exact Or.inr hr
        | none =>
          rw [htm] at hc
          rcases List.mem_cons.mp hc with rfl | hc
          · exact Or.inl (by simp)
          · rcases ih rest (by simp only [List.length_cons] at hs; omega) c hc with
              hm | hr
            · exact Or.inl (by simp [hm])
            · exact Or.inr hr
  exact H s.length s le_rfl c h

theorem mem_subMeta2 (s : List Char) (c : Char) (h : c ∈ subMeta2 s) :
    c ∈ s ∨ c ∈ "all:\"".data ∨ c = '"' := by
  have H : ∀ n (s : List Char), s.length ≤ n →
      ∀ c ∈ subMeta2 s, c ∈ s ∨ c ∈ "all:\"".data ∨ c = '"' := by
    intro n
    induction n with
    | zero =>
      intro s hs c hc
      rw [List.length_eq_zero.mp (Nat.le_zero.mp hs), subMeta2_nil] at hc
      simp at hc
    | succ n ih =>
      intro s hs c hc
      cases s with
      | nil => rw [subMeta2_nil] at hc; simp at hc
      | cons a rest =>
        rw [subMeta2] at hc
        cases htm : tryMatch2 (a :: rest) with
        | some pr =>
          rw [htm] at hc
          have hsubs := tryMatch2_subsets _ _ htm
          rcases List.mem_append.mp hc with hc | hc
          · rcases List.mem_append.mp hc with hc | hc
            · exact Or.inr (Or.inl hc)
            · exact Or.inl (hsubs.1 c hc)
          · rcases List.mem_cons.mp hc with rfl | hc
            · exact Or.inr (Or.inr rfl)
            · have hlen : pr.2.length ≤ n := by
                have := tryMatch2_rest_length _ _ htm
                simp only [List.length_cons] at this hs
                omega
              rcases ih _ hlen c hc with hm | hr
              · exact Or.inl (hsubs.2 c hm)
              · exact Or.inr hr
        | none =>
          rw [htm] at hc
          rcases List.mem_cons.mp hc with rfl | hc
          · exact Or.inl (by simp)
          · rcases ih rest (by simp only [List.length_cons] at hs; omega) c hc with
              hm | hr
            · exact Or.inl (by simp [hm])
            · exact Or.inr hr
  exact H s.length s le_rfl c h

theorem mem_opsUpper (s : List Char) (c : Char) (h : c ∈ opsUpper s) :
    c ∈ s ∨ (c ∈ " AND ".data ∨ c ∈ " OR ".data ∨ c ∈ " ANDNOT ".data) := by
  simp only [opsUpper, opsSrc, List.foldl_cons, List.foldl_nil] at h
  rcases mem_replaceSub _ _ _ _ h with h | h
  rcases mem_replaceSub _ _ _ _ h with h | h
  rcases mem_replaceSub _ _ _ _ h with h | h
  rcases mem_replaceSub _ _ _ _ h with h | h
  rcases mem_replaceSub _ _ _ _ h with h | h
  rcases mem_replaceSub _ _ _ _ h with h | h
  rcases mem_replaceSub _ _ _ _ h with h | h
  rcases mem_replaceSub _ _ _ _ h with h | h
  rcases mem_replaceSub _ _ _ _ h with h | h
  · exact Or.inl h
  · exact Or.inr (Or.inl h)
  · exact Or.inr (Or.inl h)
  · exact Or.inr (Or.inl h)
  · exact Or.inr (Or.inr (Or.inl h))
  · exact Or.inr (Or.inr (Or.inl h))
  · exact Or.inr (Or.inr (Or.inl h))
  · exact Or.inr (Or.inr (Or.inr h))
  · exact Or.inr (Or.inr (Or.inr h))
  · exact Or.inr (Or.inr (Or.inr h))

theorem normQuote_not_curly (c : Char) : isCurly (normQuote c) = false := by
  unfold normQuote
  split_ifs with h1 h2
  · decide
  · decide
  · simp only [Bool.or_eq_true, decide_eq_true_eq, not_or] at h1 h2
    simp [isCurly, h1.1, h1.2, h2.1, h2.2]

theorem collapseWs_allSpace (s : List Char) (c : Char) (h : c ∈ collapseWs s)
    (hw : isWsChar c = true) : c = ' ' := by
  have H : ∀ n (s : List Char), s.length ≤ n → ∀ c ∈ collapseWs s,
      isWsChar c = true → c = ' ' := by
    intro n
    induction n with
    | zero =>
      intro s hs c hc _
      rw [List.length_eq_zero.mp (Nat.le_zero.mp hs), collapseWs_nil] at hc
      simp at hc
    | succ n ih =>
      intro s hs c hc hw
      cases s with
      | nil => rw [collapseWs_nil] at hc; simp at hc
      | cons a rest =>
        rw [collapseWs] at hc
        by_cases hwa : isWsChar a = true
        · rw [if_pos hwa] at hc
          rcases List.mem_cons.mp hc with rfl | hc
          · rfl
          · have hlen : (rest.dropWhile isWsChar).length ≤ n := by
              have := lengthDropWhileLe isWsChar rest
              simp only [List.length_cons] at hs
              omega
            exact ih _ hlen c hc hw
        · rw [if_neg hwa] at hc
          rcases List.mem_cons.mp hc with rfl | hc
          · rw [hw] at hwa; exact absurd rfl hwa
          · exact ih rest (by simp only [List.length_cons] at hs; omega) c hc hw
  exact H s.length s le_rfl c h hw

theorem collapseMulti_no_wsws (s : List Char) :
    noPairB (fun x y => isWsChar x && isWsChar y) (collapseMulti s) = true := by
  have H : ∀ n (s : List Char), s.length ≤ n →
      noPairB (fun x y => isWsChar x && isWsChar y) (collapseMulti s) = true := by
    intro n
    induction n with
    | zero =>
      intro s hs
      rw [List.length_eq_zero.mp (Nat.le_zero.mp hs), collapseMulti_nil]
      rfl
    | succ n ih =>
      intro s hs
      cases s with
      | nil => rw [collapseMulti_nil]; rfl
      | cons a rest =>
        rw [collapseMulti]
        by_cases hc : (isWsChar a && headWs rest) = true
        · rw [if_pos hc]
          refine noPairB_cons_of _ _ _ ?_ (ih _ ?_)
          · intro y hy
            cases hd : rest.dropWhile isWsChar with
            | nil =>
              rw [hd, collapseMulti_nil] at hy
              simp at hy
            | cons d ds =>
              have hdws : isWsChar d = false := by
                have := List.head?_dropWhile_not isWsChar rest
                rw [hd] at this
                simpa using this
              rw [hd, collapseMulti_head_nonws (d :: ds) d (by simp) hdws] at hy
              have hyd : y = d := by injection hy with h'; exact h'.symm
              subst hyd
              simp [hdws]
          · have := lengthDropWhileLe isWsChar rest
            simp only [List.length_cons] at hs
            omega
        · rw [Bool.eq_false_iff.mpr hc]
          simp only [Bool.false_eq_true, if_false]
          refine noPairB_cons_of _ _ _ ?_
            (ih _ (by simp only [List.length_cons] at hs; omega))
          intro y hy
          by_cases hws : isWsChar a = true
          · have hrest : headWs rest = false := by
              by_contra hh
              exact hc (by simp [hws, Bool.eq_true_of_ne_false hh])
            cases rest with
            | nil =>
              rw [collapseMulti_nil] at hy
              simp at hy
            | cons r0 rt =>
              have hr0 : isWsChar r0 = false := by simpa [headWs] using hrest
              rw [collapseMulti_head_nonws (r0 :: rt) r0 (by simp) hr0] at hy
              have hyr : y = r0 := by injection hy with h'; exact h'.symm
              subst hyr
              simp [hr0]
          · simp [Bool.eq_false_iff.mpr hws]
  exact H s.length s le_rfl

theorem normalizeList_no_curly (s : List Char) :
    ∀ c ∈ normalizeList s, isCurly c = false := by
  intro c hc
  unfold normalizeList at hc
  have hA : ∀ d ∈ "all:\"".data, isCurly d = false := by decide
  have h1 := mem_pyStrip _ _ hc
  rcases mem_collapseMulti _ _ h1 with h2 | rfl
  swap
  · decide
  rcases mem_parenClose _ _ h2 with h3 | rfl
  swap
  · decide
  have h4 := mem_parenOpen _ _ h3
  rcases mem_subMeta2 _ _ h4 with h5 | hm | rfl
  rotate_left
  · exact hA c hm
  · decide
  rcases mem_subMeta1 _ _ h5 with h6 | hm | rfl
  rotate_left
  · exact hA c hm
  · decide
  rcases mem_opsUpper _ _ h6 with h7 | hm
  swap
  · rcases hm with hm | hm | hm
    · exact (show ∀ d ∈ " AND ".data, isCurly d = false by decide) c hm
    · exact (show ∀ d ∈ " OR ".data, isCurly d = false by decide) c hm
    · exact (show ∀ d ∈ " ANDNOT ".data, isCurly d = false by decide) c hm
  rcases mem_collapseWs _ _ h7 with h8 | rfl
  swap
  · decide
  rcases List.mem_map.mp h8 with ⟨d, -, rfl⟩
  exact normQuote_not_curly d

theorem normalizeList_wsn (s : List Char) : wsnB (normalizeList s) = true := by
  rw [wsnB_split]
  constructor
  · rw [allSpaceWs_iff]
    intro c hc hw
    unfold normalizeList at hc
    have hA : ∀ d ∈ "all:\"".data, isWsChar d = false := by decide
    have h1 := mem_pyStrip _ _ hc
    rcases mem_collapseMulti _ _ h1 with h2 | rfl
    swap
    · rfl
    rcases mem_parenClose _ _ h2 with h3 | rfl
    swap
    · cases hw
    have h4 := mem_parenOpen _ _ h3
    rcases mem_subMeta2 _ _ h4 with h5 | hm | rfl
    rotate_left
    · rw [hA c hm] at hw; cases hw
    · cases hw
    rcases mem_subMeta1 _ _ h5 with h6 | hm | rfl
    rotate_left
    · rw [hA c hm] at hw; cases hw
    · cases hw
    rcases mem_opsUpper _ _ h6 with h7 | hm
    swap
    · rcases hm with hm | hm | hm
      · exact (show ∀ d ∈ " AND ".data, isWsChar d = true → d = ' ' by decide) c hm hw
      · exact (show ∀ d ∈ " OR ".data, isWsChar d = true → d = ' ' by decide) c hm hw
      · exact (show ∀ d ∈ " ANDNOT ".data, isWsChar d = true → d = ' ' by decide) c hm hw
    exact collapseWs_allSpace _ c h7 hw
  · exact noPairB_pyStrip _ _ (collapseMulti_no_wsws _)

theorem opsUpper_id_of_noVariants (y : List Char)
    (ha : containsSub " and ".data y = false)
    (hA : containsSub " And ".data y = false)
    (ho : containsSub " or ".data y = false)
    (hO : containsSub " Or ".data y = false)
    (hn : containsSub " andnot ".data y = false)
    (hN : containsSub " Andnot ".data y = false) : opsUpper y = y := by
  simp only [opsUpper, opsSrc, List.foldl_cons, List.foldl_nil]
  rw [replaceSub_id_of_not_contains _ _ _ ha, replaceSub_id_of_not_contains _ _ _ hA,
    replaceSub_self " AND ".data, replaceSub_id_of_not_contains _ _ _ ho,
    replaceSub_id_of_not_contains _ _ _ hO, replaceSub_self " OR ".data,
    replaceSub_id_of_not_contains _ _ _ hn, replaceSub_id_of_not_contains _ _ _ hN,
    replaceSub_self " ANDNOT ".data]

/-- Scan that checks the quoted-field clause pattern matches at no
position of the string. -/
def noMatch1B : List Char → Bool
  | [] => true
  | a :: rest => (tryMatch1 (a :: rest)).isNone && noMatch1B rest

/-- Scan that checks the unquoted-field clause pattern matches at no
position of the string. -/
def noMatch2B : List Char → Bool
  | [] => true
  | a :: rest => (tryMatch2 (a :: rest)).isNone && noMatch2B rest

theorem subMeta1_id_of_noMatch (s : List Char) (h : noMatch1B s = true) :
    subMeta1 s = s := by
  induction s with
  | nil => exact subMeta1_nil
  | cons a rest ih =>
    simp only [noMatch1B, Bool.and_eq_true, Option.isNone_iff_eq_none] at h
    rw [subMeta1, h.1, ih h.2]

theorem subMeta2_id_of_noMatch (s : List Char) (h : noMatch2B s = true) :
    subMeta2 s = s := by
  induction s with
  | nil => exact subMeta2_nil
  | cons a rest ih =>
    simp only [noMatch2B, Bool.and_eq_true, Option.isNone_iff_eq_none] at h
    rw [subMeta2, h.1, ih h.2]

theorem normalizeList_strip_id (s : List Char) :
    pyStrip (normalizeList s) = normalizeList s := by
  unfold normalizeList
  exact pyStrip_idem _

theorem normalizeList_idem_of_stable (s : List Char)
    (ha : containsSub " and ".data (normalizeList s) = false)
    (hA : containsSub " And ".data (normalizeList s) = false)
    (ho : containsSub " or ".data (normalizeList s) = false)
    (hO : containsSub " Or ".data (normalizeList s) = false)
    (hn : containsSub " andnot ".data (normalizeList s) = false)
    (hN : containsSub " Andnot ".data (normalizeList s) = false)
    (hm1 : noMatch1B (normalizeList s) = true)
    (hm2 : noMatch2B (normalizeList s) = true) :
    normalizeList (normalizeList s) = normalizeList s := by
  have hwsn := normalizeList_wsn s
  have hparen := normalizeList_noParenWs s
  show pyStrip (collapseMulti (parenClose (parenOpen (subMeta2 (subMeta1 (opsUpper
    (collapseWs ((pyStrip (normalizeList s)).map normQuote)))))))) = _
  rw [normalizeList_strip_id s]
  rw [map_normQuote_id _ fun c hc =>
    normQuote_id_of_not_curly c (normalizeList_no_curly s c hc)]
  rw [collapseWs_id _ hwsn]
  rw [opsUpper_id_of_noVariants _ ha hA ho hO hn hN]
  rw [subMeta1_id_of_noMatch _ hm1, subMeta2_id_of_noMatch _ hm2]
  rw [parenOpen_id _ hparen.1, parenClose_id _ hparen.2]
  rw [collapseMulti_id _ hwsn]
  exact normalizeList_strip_id s

/-- C7 (amended): the translator is idempotent on every input whose
translated form is stable: if the translator's output contains no
remaining spaced lowercase/Capitalized connective variant and no
position where either `All Metadata` clause pattern still matches, then
applying the translator a second time returns the output unchanged.
(Unrestricted idempotence is refuted by `C7_counterexample`: a quoted
`'All Metadata':'y'` inside an already-rewritten phrase is rewritten
again by the second pass.) -/
theorem C7_idempotent_on_stable_outputs :
    ∀ x : String,
      containsSub " and ".data (normalize_command_search_to_arxiv x).data = false →
      containsSub " And ".data (normalize_command_search_to_arxiv x).data = false →
      containsSub " or ".data (normalize_command_search_to_arxiv x).data = false →
      containsSub " Or ".data (normalize_command_search_to_arxiv x).data = false →
      containsSub " andnot ".data (normalize_command_search_to_arxiv x).data = false →
      containsSub " Andnot ".data (normalize_command_search_to_arxiv x).data = false →
      noMatch1B (normalize_command_search_to_arxiv x).data = true →
      noMatch2B (normalize_command_search_to_arxiv x).data = true →
      normalize_command_search_to_arxiv (normalize_command_search_to_arxiv x)
        = normalize_command_search_to_arxiv x :=
  fun x ha hA ho hO hn hN hm1 hm2 =>
    congrArg String.mk
      (normalizeList_idem_of_stable x.data ha hA ho hO hn hN hm1 hm2)

unseal collapseWs collapseMulti parenOpen parenClose replaceSub subMeta1 subMeta2 in
/-- C7 counterexample: translating
`"All Metadata":"'All Metadata':'y'"` once yields
`all:"'All Metadata':'y'"`, but a second application rewrites the
single-quoted clause inside the already-rewritten phrase, yielding
`all:"all:"y""` — so `translate (translate x) ≠ translate x`, and the
clause syntax is changed by the second pass. -/
theorem C7_counterexample :
    normalize_command_search_to_arxiv "\"All Metadata\":\"'All Metadata':'y'\""
      = "all:\"'All Metadata':'y'\""
    ∧ normalize_command_search_to_arxiv (normalize_command_search_to_arxiv
        "\"All Metadata\":\"'All Metadata':'y'\"")
      = "all:\"all:\"y\"\""
    ∧ normalize_command_search_to_arxiv (normalize_command_search_to_arxiv
        "\"All Metadata\":\"'All Metadata':'y'\"")
      ≠ normalize_command_search_to_arxiv "\"All Metadata\":\"'All Metadata':'y'\"" := by
  refine ⟨rfl, rfl, ?_⟩
  decide

unseal collapseWs collapseMulti parenOpen parenClose replaceSub subMeta1 subMeta2 in
/-- Witness for `C7_idempotent_on_stable_outputs` at the concrete input
`A AND B`. -/
theorem C7_idempotent_on_stable_outputs_witness :
    normalize_command_search_to_arxiv (normalize_command_search_to_arxiv "A AND B")
      = normalize_command_search_to_arxiv "A AND B" :=
  C7_idempotent_on_stable_outputs "A AND B" (by decide) (by decide) (by decide)
    (by decide) (by decide) (by decide) (by decide) (by decide)

/-! ### The fetch stage (`search_arxiv_to_dataframe`) and CLI (`main`)

The upstream `arxiv` client library and `pandas` are third-party code
not present in the repository; their shapes are modelled from the
spec's contract, while the per-record field mapping, the accumulation
loop and the `main` control flow are translated from the source. -/

/-- Modelled from the spec: the shape of one upstream search result as
consumed by `search_arxiv_to_dataframe` (the `arxiv` library's result
object).  Optional attributes are `Option`s; the publication
timestamp's year accessor may fail, matching the `try/except` around
`result.published.year`; `get_short_id` is `some` exactly when the
upstream object has the accessor (`hasattr`). -/
structure ArxivResult where
  title : Option String
  summary : Option String
  authors : List String
  published : Option (Except Unit Nat)
  doi : Option String
  journal_ref : Option String
  entry_id : Option String
  get_short_id : Option String
  primary_category : Option String
  categories : List String

/-- One exported row (`Record` of the spec), as assembled by the loop
body of `search_arxiv_to_dataframe`. -/
structure Record where
  title : String
  abstract : String
  authors : String
  year : String
  doi : String
  journal_ref : String
  url : String
  arxiv_id : String
  primary_category : String
  categories : String

/-- Decimal digits of `n`, least significant first (`str` on a
nonnegative `int`). -/
def toDigitsRev (n : Nat) : List Nat :=
  if n < 10 then [n] else n % 10 :: toDigitsRev (n / 10)
termination_by n
decreasing_by
  exact Nat.div_lt_self (by omega) (by omega)

/-- The decimal digit character for `d < 10`. -/
def digitChar (d : Nat) : Char := Char.ofNat (48 + d)

/-- Python `str` on a nonnegative integer (the year). -/
def yearString (y : Nat) : String :=
  String.mk ((toDigitsRev y).reverse.map digitChar)

/-- Python `s.replace('\n', ' ')`. -/
def replaceNl (s : String) : String :=
  String.mk (s.data.map fun c => if c = '\n' then ' ' else c)

/-- Python `s.strip()` on `String`. -/
def pyStripStr (s : String) : String := String.mk (pyStrip s.data)

/-- Python `s.split('/')[-1]`. -/
def lastSegment (s : String) : String := (s.splitOn "/").getLastD ""

/-- The loop body of `search_arxiv_to_dataframe`: build one `Record`
from one upstream result (source lines 117–153). -/
def buildRecord (r : ArxivResult) : Record :=
  { title := pyStripStr (replaceNl (r.title.getD ""))
    abstract := pyStripStr (replaceNl (r.summary.getD ""))
    authors := if r.authors.isEmpty then "" else String.intercalate "; " r.authors
    year := match r.published with
      | none => ""
      | some (.error _) => ""
      | some (.ok y) => yearString y
    doi := r.doi.getD ""
    journal_ref := r.journal_ref.getD ""
    url := r.entry_id.getD ""
    arxiv_id := match r.get_short_id with
      | some sid => sid
      | none => match r.entry_id with
        | none => ""
        | some e => if e = "" then "" else lastSegment e
    primary_category := r.primary_category.getD ""
    categories := if r.categories.isEmpty then ""
      else String.intercalate "; " r.categories }

/-- The accumulation loop of `search_arxiv_to_dataframe`: records are
appended one per yielded result, in order. -/
def fetchRecords (rs : List ArxivResult) : List Record :=
  rs.foldl (fun acc r => acc ++ [buildRecord r]) []

/-- The fixed column order of the exported table (source lines
155–158). -/
def csvColumns : List String :=
  ["Title", "Abstract", "Authors", "Year", "DOI", "Journal/Conference",
   "URL", "arXiv ID", "Primary Category", "Categories"]

/-- Modelled from the spec: pandas `to_csv` minimal quoting — a field
is quoted iff it contains the delimiter, the quote character or a line
break. -/
def needsQuote (f : String) : Bool :=
  f.data.any fun c => c = ',' || c = '"' || c = '\n' || c = '\r'

/-- Modelled from the spec: one CSV cell, with embedded quotes doubled
when the field is quoted. -/
def csvField (f : String) : String :=
  if needsQuote f then
    "\"" ++ String.mk (f.data.foldr
      (fun c acc => if c = '"' then '"' :: '"' :: acc else c :: acc) []) ++ "\""
  else f

/-- The cells of one record, in column order. -/
def recordCells (r : Record) : List String :=
  [r.title, r.abstract, r.authors, r.year, r.doi, r.journal_ref, r.url,
   r.arxiv_id, r.primary_category, r.categories]

/-- One CSV line: comma-joined escaped cells. -/
def csvLine (cells : List String) : String :=
  String.intercalate "," (cells.map csvField)

/-- The header row written by `to_csv`. -/
def headerLine : String := csvLine csvColumns

/-- All rows of the exported file, header first, one row per record in
order. -/
def csvLines (table : List Record) : List String :=
  headerLine :: table.map fun r => csvLine (recordCells r)

/-- The `utf-8-sig` byte-order marker code point. -/
def bomChar : Char := Char.ofNat 0xFEFF

/-- Modelled from the spec: `df.to_csv(out, index=False,
encoding="utf-8-sig")` — a leading byte-order marker, then each row
terminated by a newline. -/
def to_csv (table : List Record) : String :=
  String.mk [bomChar] ++ String.join ((csvLines table).map (· ++ "\n"))

/-- The outcome of one run of `main`: `exitCode = none` models an
uncaught exception terminating the process, `some n` a `sys.exit`-style
exit status; `outFile` is the CSV contents written, if any. -/
structure RunOutcome where
  exitCode : Option Nat
  errMessages : List String
  outFile : Option String

/-- The prompt printed to the diagnostic stream. -/
def promptMsg : String :=
  "Cole sua query no formato de 'Command Search' (finalize com Ctrl+D em Linux/macOS ou Ctrl+Z+Enter no Windows):\n"

/-- The diagnostic message for an empty query. -/
def emptyQueryMsg : String := "Nenhuma query recebida via stdin."

/-- The echo of the translated query on the diagnostic stream. -/
def convertedMsg (q : String) : String :=
  "\nQuery convertida para arXiv:\n" ++ q ++ "\n"

/-- The save-confirmation message (output path out of core scope). -/
def savedMsg : String := "CSV salvo em: "

/-- The record-count message. -/
def countMsg (n : Nat) : String := "Total de registros: " ++ toString n

/-- `main` (source lines 162–192): read the raw query, reject
empty/whitespace-only input with exit status 1 and no output file,
otherwise translate, fetch through the injected client capability and
write the CSV only after the full fetch succeeded; a fetch failure
propagates uncaught (no exit status, no file). -/
def runMain (rawQuery : String)
    (fetch : String → Except Unit (List ArxivResult)) : RunOutcome :=
  if String.mk (pyStrip rawQuery.data) = "" then
    { exitCode := some 1, errMessages := [promptMsg, emptyQueryMsg], outFile := none }
  else
    let q := normalize_command_search_to_arxiv rawQuery
    match fetch q with
    | .error _ =>
      { exitCode := none, errMessages := [promptMsg, convertedMsg q], outFile := none }
    | .ok rs =>
      let df := fetchRecords rs
      { exitCode := some 0,
        errMessages := [promptMsg, convertedMsg q, savedMsg, countMsg df.length],
        outFile := some (to_csv df) }

/-! ### Facts about the fetch and export stages -/

/-- The appending fold of the fetch loop builds exactly the map of the
row constructor over the yielded results. -/
theorem fetchRecords_eq_map (rs : List ArxivResult) :
    fetchRecords rs = rs.map buildRecord := by
  have H : ∀ (l : List ArxivResult) (init : List Record),
      l.foldl (fun acc r => acc ++ [buildRecord r]) init = init ++ l.map buildRecord := by
    intro l
    induction l with
    | nil => intro init; simp
    | cons a t ih => intro init; simp [List.foldl_cons, ih]
  simpa using H rs []

/-- A four-digit number has four decimal digits. -/
theorem toDigitsRev_len4 (y : Nat) (h1 : 1000 ≤ y) (h2 : y ≤ 9999) :
    (toDigitsRev y).length = 4 := by
  rw [toDigitsRev, if_neg (by omega)]
  rw [toDigitsRev, if_neg (by omega)]
  rw [toDigitsRev, if_neg (by omega)]
  rw [toDigitsRev, if_pos (by omega)]
  rfl

/-- The year string of a four-digit year has length 4. -/
theorem yearString_len4 (y : Nat) (h1 : 1000 ≤ y) (h2 : y ≤ 9999) :
    (yearString y).length = 4 := by
  show ((toDigitsRev y).reverse.map digitChar).length = 4
  rw [List.length_map, List.length_reverse, toDigitsRev_len4 y h1 h2]

/-- C3: the claim as stated is false — the header row written by the
exporter has no spaces after the delimiters: for the empty table the
file consists of the single header line, and that line is not the
spec's spaced string `Title, Abstract, ...`. -/
theorem C3_counterexample :
    csvLines [] = [headerLine] ∧
    headerLine ≠ "Title, Abstract, Authors, Year, DOI, Journal/Conference, URL, arXiv ID, Primary Category, Categories" :=
  ⟨rfl, by decide⟩

/-- C3 (amended): for every export table the written file starts with a
byte-order marker, its first line is exactly the header
`Title,Abstract,Authors,Year,DOI,Journal/Conference,URL,arXiv ID,Primary Category,Categories`
(comma-delimited, no spaces), and it has exactly one further
comma-delimited, CSV-escaped line per record, in table order. -/
theorem C3_export_format :
    headerLine = "Title,Abstract,Authors,Year,DOI,Journal/Conference,URL,arXiv ID,Primary Category,Categories"
    ∧ (∀ table : List Record, (to_csv table).data.head? = some bomChar)
    ∧ (∀ table : List Record, (csvLines table).length = table.length + 1)
    ∧ (∀ table : List Record, ∀ i : Nat,
        (csvLines table)[i + 1]? = (table[i]?).map fun r => csvLine (recordCells r)) := by
  refine ⟨by decide, ?_, ?_, ?_⟩
  · intro table
    rfl
  · intro table
    simp [csvLines]
  · intro table i
    simp [csvLines]

/-- C4: an empty or whitespace-only raw query makes the run print the
diagnostic message, exit with status 1 and write no output file. -/
theorem C4_empty_query (raw : String) (fetch : String → Except Unit (List ArxivResult))
    (h : pyStrip raw.data = []) :
    runMain raw fetch =
      { exitCode := some 1, errMessages := [promptMsg, emptyQueryMsg], outFile := none } := by
  have hcond : String.mk (pyStrip raw.data) = "" := by rw [h]
  unfold runMain
  rw [if_pos hcond]

/-- Witness for C4 at the whitespace-only raw query of a space, a
newline and two spaces. -/
theorem C4_empty_query_witness :
    pyStrip " \n  ".data = [] ∧
    runMain " \n  " (fun _ => Except.ok []) =
      { exitCode := some 1, errMessages := [promptMsg, emptyQueryMsg], outFile := none } :=
  ⟨by decide, C4_empty_query " \n  " (fun _ => Except.ok []) (by decide)⟩

/-- C5: when the fetch capability fails on the translated query, the
failure propagates (no exit status is produced by the program itself)
and no output file is written — the outcome carries no CSV at all, so
partial records are discarded. -/
theorem C5_fetch_failure (raw : String) (fetch : String → Except Unit (List ArxivResult))
    (hne : pyStrip raw.data ≠ [])
    (hf : fetch (normalize_command_search_to_arxiv raw) = Except.error ()) :
    runMain raw fetch =
      { exitCode := none,
        errMessages := [promptMsg, convertedMsg (normalize_command_search_to_arxiv raw)],
        outFile := none } := by
  have hcond : ¬ (String.mk (pyStrip raw.data) = "") := by
    intro h0
    exact hne (congrArg String.data h0)
  unfold runMain
  rw [if_neg hcond]
  simp only [hf]

/-- Witness for C5 at raw query A with an always-failing fetch. -/
theorem C5_fetch_failure_witness :
    pyStrip "A".data ≠ [] ∧
    runMain "A" (fun _ => Except.error ()) =
      { exitCode := none,
        errMessages := [promptMsg, convertedMsg (normalize_command_search_to_arxiv "A")],
        outFile := none } :=
  ⟨by decide, C5_fetch_failure "A" (fun _ => Except.error ()) (by decide) rfl⟩

/-- C6: when the fetch succeeds with zero records, the run still exits
with status 0 and writes an output file consisting of the byte-order
marker and the header row only. -/
theorem C6_zero_records (raw : String) (fetch : String → Except Unit (List ArxivResult))
    (hne : pyStrip raw.data ≠ [])
    (hf : fetch (normalize_command_search_to_arxiv raw) = Except.ok []) :
    (runMain raw fetch).outFile = some (String.mk [bomChar] ++ (headerLine ++ "\n"))
    ∧ (runMain raw fetch).exitCode = some 0 := by
  have hcond : ¬ (String.mk (pyStrip raw.data) = "") := by
    intro h0
    exact hne (congrArg String.data h0)
  unfold runMain
  rw [if_neg hcond]
  simp only [hf]
  exact ⟨rfl, trivial⟩

/-- Witness for C6 at raw query A with a fetch yielding no records. -/
theorem C6_zero_records_witness :
    pyStrip "A".data ≠ [] ∧
    ((runMain "A" (fun _ => Except.ok [])).outFile
        = some (String.mk [bomChar] ++ (headerLine ++ "\n"))
      ∧ (runMain "A" (fun _ => Except.ok [])).exitCode = some 0) :=
  ⟨by decide, C6_zero_records "A" (fun _ => Except.ok []) (by decide) rfl⟩

/-- C9: the Year field is empty when the publication timestamp is
absent, empty when extracting the year fails, and the decimal year
string when it succeeds; a four-digit calendar year yields a 4-digit
string; and a result whose year extraction failed still produces its
record in the fetched table. -/
theorem C9_year_field (r : ArxivResult) :
    (r.published = none → (buildRecord r).year = "")
    ∧ (∀ e : Unit, r.published = some (Except.error e) → (buildRecord r).year = "")
    ∧ (∀ y : Nat, r.published = some (Except.ok y) → (buildRecord r).year = yearString y)
    ∧ (∀ y : Nat, 1000 ≤ y → y ≤ 9999 → (yearString y).length = 4)
    ∧ (∀ rs : List ArxivResult, r ∈ rs → buildRecord r ∈ fetchRecords rs) := by
  refine ⟨?_, ?_, ?_, ?_, ?_⟩
  · intro h
    simp [buildRecord, h]
  · intro e h
    simp [buildRecord, h]
  · intro y h
    simp [buildRecord, h]
  · intro y h1 h2
    exact yearString_len4 y h1 h2
  · intro rs hmem
    rw [fetchRecords_eq_map]
    exact List.mem_map_of_mem buildRecord hmem

/-- A sample upstream result with a present, successfully extracted
publication year. -/
def rEx : ArxivResult :=
  { title := some "T", summary := some "S", authors := ["A B"],
    published := some (Except.ok 2023), doi := none, journal_ref := none,
    entry_id := some "http://arxiv.org/abs/1234.5678v1",
    get_short_id := some "1234.5678v1",
    primary_category := some "cs.AI", categories := ["cs.AI"] }

/-- Witness for C9 at a sample result published in 2023. -/
theorem C9_year_field_witness :
    rEx.published = some (Except.ok 2023)
    ∧ (buildRecord rEx).year = yearString 2023
    ∧ (1000 ≤ 2023 ∧ 2023 ≤ 9999 ∧ (yearString 2023).length = 4)
    ∧ (rEx ∈ [rEx] ∧ buildRecord rEx ∈ fetchRecords [rEx]) :=
  ⟨rfl,
   (C9_year_field rEx).2.2.1 2023 rfl,
   ⟨by decide, by decide, (C9_year_field rEx).2.2.2.1 2023 (by decide) (by decide)⟩,
   ⟨by simp, (C9_year_field rEx).2.2.2.2 [rEx] (by simp)⟩⟩

/-- C10: the fetcher builds exactly one record per yielded result, in
yield order, with no filtering, deduplication or reordering, and the
exported file has exactly one data line per record, in the same
order. -/
theorem C10_one_row_per_result (rs : List ArxivResult) :
    (fetchRecords rs).length = rs.length
    ∧ (∀ i : Nat, (fetchRecords rs)[i]? = (rs[i]?).map buildRecord)
    ∧ (csvLines (fetchRecords rs)).length = rs.length + 1
    ∧ (∀ i : Nat, (csvLines (fetchRecords rs))[i + 1]?
        = (rs[i]?).map fun r => csvLine (recordCells (buildRecord r))) := by
  refine ⟨?_, ?_, ?_, ?_⟩
  · rw [fetchRecords_eq_map]
    simp
  · intro i
    rw [fetchRecords_eq_map]
    simp
  · rw [fetchRecords_eq_map]
    simp [csvLines]
  · intro i
    rw [fetchRecords_eq_map]
    simp [csvLines]
    cases h0 : rs[i]? <;> rfl
